import Mathlib

/-!
The SportRadar scoreboard

A shallow embedding of `src/SportRadar.cpp` (struct `match`, struct `match_node`,
class `scoreboard`) and a verification of its specification.

Modelling conventions.

* `match` is a reserved word, so the struct `match` is called `Match`.
* `int` scores are `Int`, and the `int` addition of `operator<` is `int_add`,
  the sum reduced to 32 bits in two's complement. Signed overflow is undefined
  behaviour in C++; the model takes the value the usual builds compute. Where
  the exact sum fits an `int`, `int_add` is the exact sum.
* `size_t` sequence numbers are `Nat`: the counter starts at 0 and is only ever
  incremented by one per `start`, so the wrap-around is 2^64 calls of `start`
  away and no execution reaches it.
* `std::set<match_node>` is the list of its elements in iteration order, with
  `set_insert` and `set_erase` following the container contract (elements are
  unique up to the equivalence induced by `operator<`).
* `std::unordered_map<match, size_t>` is a function from the (home, away) pair,
  which is all that `operator==` of `match` looks at, to the stored entry: the
  stored key (a whole `match`, scores included) and the mapped sequence number.
* Dereferencing the end iterator in `update` is undefined behaviour: `update`
  returns `none` there.
-/

namespace SportRadar

/-- The struct `match`: two names and two scores. -/
structure Match where
  home : String
  away : String
  home_goals : Int
  away_goals : Int
  deriving DecidableEq, Repr

/-- The two-argument constructor `match(home, away)`, which delegates to
`match(home, away, 0, 0)`. -/
def Match.start (home away : String) : Match := ⟨home, away, 0, 0⟩

/-- The member `match::operator==`: names only. -/
def Match.eq (a to_compare : Match) : Bool :=
  a.home == to_compare.home && a.away == to_compare.away

/-- The total score of a match as a number: the exact sum of the two scores. -/
def Match.total (a : Match) : Int := a.home_goals + a.away_goals

/-- The value an `int` holds for the exact result `x`: 32 bits, two's complement. -/
def wrap_int (x : Int) : Int := (x + 2147483648) % 4294967296 - 2147483648

/-- The addition of two `int`. -/
def int_add (a b : Int) : Int := wrap_int (a + b)

/-- The expression `m.home_goals + m.away_goals` of `match_node::operator<`, an
addition of two `int`. -/
def Match.int_total (a : Match) : Int := int_add a.home_goals a.away_goals

/-- The exact total fits an `int`: the addition in `operator<` does not overflow. -/
def Match.in_range (a : Match) : Prop := -2147483648 ≤ a.total ∧ a.total ≤ 2147483647

instance (a : Match) : Decidable a.in_range :=
  inferInstanceAs (Decidable (-2147483648 ≤ a.total ∧ a.total ≤ 2147483647))

/-- The pair of names of a match, the part `operator==` compares. -/
def Match.ident (a : Match) : String × String := (a.home, a.away)

/-- The struct `match_node`: a match and its sequence number. -/
structure match_node where
  m : Match
  order : Nat
  deriving DecidableEq, Repr

/-- The member `match_node::operator<`. -/
def match_node.lt (a to_compare : match_node) : Bool :=
  if int_add a.m.home_goals a.m.away_goals ≠
      int_add to_compare.m.home_goals to_compare.m.away_goals then
    decide (int_add a.m.home_goals a.m.away_goals >
      int_add to_compare.m.home_goals to_compare.m.away_goals)
  else
    decide (a.order < to_compare.order)

/-- The member `match_node::operator<` with the two sums taken as exact integers
instead of `int`: the rank order as a relation on numbers. It is `match_node.lt`
wherever neither sum overflows. -/
def match_node.lt_exact (a to_compare : match_node) : Bool :=
  if a.m.home_goals + a.m.away_goals ≠ to_compare.m.home_goals + to_compare.m.away_goals then
    decide (a.m.home_goals + a.m.away_goals > to_compare.m.home_goals + to_compare.m.away_goals)
  else
    decide (a.order < to_compare.order)

/-- Equivalence of two keys of a `std::set`: neither is less than the other. -/
def match_node.equiv (a b : match_node) : Bool := !a.lt b && !b.lt a

/-- The call `std::set::insert`: the element is put at its place in the order,
unless an equivalent element is already there. -/
def set_insert (x : match_node) : List match_node → List match_node
  | [] => [x]
  | y :: ys =>
    if x.lt y then x :: y :: ys
    else if y.lt x then y :: set_insert x ys
    else y :: ys

/-- The call `std::set::erase(key)`: removes the element equivalent to the key,
if there is one. -/
def set_erase (x : match_node) : List match_node → List match_node
  | [] => []
  | y :: ys => if x.equiv y then ys else y :: set_erase x ys

/-- The type `std::unordered_map<match, size_t>`: per pair of names, the stored
key and the mapped value. -/
abbrev order_map := String × String → Option (Match × Nat)

/-- The call `unordered_map::find`, `none` standing for `end()`. -/
def map_find (t : order_map) (k : Match) : Option (Match × Nat) := t k.ident

/-- The call `unordered_map::erase(iterator)` at the entry of `k`. -/
def map_erase (t : order_map) (k : Match) : order_map :=
  fun i => if i = k.ident then none else t i

/-- The statement `t[k] = v`: `operator[]` inserts the key when it is absent and
keeps the stored key when it is present; the mapped value is then assigned. -/
def map_assign (t : order_map) (k : Match) (v : Nat) : order_map :=
  fun i =>
    if i = k.ident then
      match t i with
      | some (stored, _) => some (stored, v)
      | none => some (k, v)
    else t i

/-- The class `scoreboard`. -/
structure scoreboard where
  counter : Nat
  board : List match_node
  match_to_order : order_map

/-- The constructor `scoreboard()`: counter 0, both containers empty. -/
def scoreboard.empty : scoreboard := ⟨0, [], fun _ => none⟩

/-- The method `scoreboard::start`. -/
def scoreboard.start (s : scoreboard) (home away : String) : scoreboard :=
  let new_match := Match.start home away
  { counter := s.counter + 1
    board := set_insert ⟨new_match, s.counter⟩ s.board
    match_to_order := map_assign s.match_to_order new_match s.counter }

/-- The method `scoreboard::update`; `none` when `find` returns `end()`, which the
source dereferences. -/
def scoreboard.update (s : scoreboard) (new_match : Match) : Option scoreboard :=
  match map_find s.match_to_order new_match with
  | none => none
  | some (old_match, order) =>
    some
      { counter := s.counter
        board := set_insert ⟨new_match, order⟩ (set_erase ⟨old_match, order⟩ s.board)
        match_to_order := map_assign (map_erase s.match_to_order new_match) new_match order }

/-- The method `scoreboard::finish`. -/
def scoreboard.finish (s : scoreboard) (home away : String) : scoreboard :=
  let to_remove := Match.start home away
  match map_find s.match_to_order to_remove with
  | none => s
  | some (old_match, order) =>
    { counter := s.counter
      board := set_erase ⟨old_match, order⟩ s.board
      match_to_order := map_erase s.match_to_order to_remove }

/-- The method `scoreboard::summary`. -/
def scoreboard.summary (s : scoreboard) : List Match := s.board.map (fun mn => mn.m)

/-- One call of a mutating method. -/
inductive op where
  | start (home away : String)
  | update (m : Match)
  | finish (home away : String)
  deriving DecidableEq, Repr

/-- Apply one call. -/
def step (s : scoreboard) : op → Option scoreboard
  | .start h a => some (s.start h a)
  | .update m => s.update m
  | .finish h a => some (s.finish h a)

/-- Apply a sequence of calls, first call first; `none` as soon as an `update`
targets a pair that is not in the lookup index. -/
def run (s : scoreboard) : List op → Option scoreboard
  | [] => some s
  | o :: rest =>
    match step s o with
    | none => none
    | some s1 => run s1 rest

/-- The pair is active in `s`: it has an entry in the lookup index. -/
def scoreboard.active (s : scoreboard) (home away : String) : Bool :=
  (s.match_to_order (home, away)).isSome

/-- The call is not a `start` of a pair that is active in `s`. -/
def fresh_call (s : scoreboard) : op → Bool
  | .start h a => !s.active h a
  | .update _ => true
  | .finish _ _ => true

/-- No call of the sequence starts a pair that is active at the moment of the
call (and every `update` finds its entry). -/
def fresh_starts (s : scoreboard) : List op → Bool
  | [] => true
  | o :: rest =>
    fresh_call s o &&
    (match step s o with
      | none => false
      | some s1 => fresh_starts s1 rest)

/-- States the scoreboard can be in: results of a sequence of calls on a new
scoreboard, every `update` targeting an active contest. -/
def Reachable (s : scoreboard) : Prop := ∃ ops, run scoreboard.empty ops = some s

/-- States reached without ever starting a pair that is already active. -/
def ReachableFresh (s : scoreboard) : Prop :=
  ∃ ops, fresh_starts scoreboard.empty ops = true ∧ run scoreboard.empty ops = some s

/-- The rank index is in strictly increasing `operator<` order. -/
def Sorted (l : List match_node) : Prop := l.Pairwise (fun a b => a.lt b = true)

/-- What holds in every reachable state: the rank index is sorted and every
sequence number in use is below the counter. -/
structure Inv (s : scoreboard) : Prop where
  sorted : Sorted s.board
  board_lt : ∀ n ∈ s.board, n.order < s.counter
  map_lt : ∀ k m o, s.match_to_order k = some (m, o) → o < s.counter

/-- What holds in addition when no active pair was ever started again: the two
indexes hold the same contests and no sequence number is used twice. -/
structure InvF (s : scoreboard) : Prop where
  inv : Inv s
  map_board : ∀ k m o, s.match_to_order k = some (m, o) → m.ident = k ∧ ⟨m, o⟩ ∈ s.board
  board_map : ∀ n ∈ s.board, s.match_to_order n.m.ident = some (n.m, n.order)
  order_inj : ∀ n1 ∈ s.board, ∀ n2 ∈ s.board, n1.order = n2.order → n1 = n2

/-- Number of `start` calls in a sequence. -/
def count_starts : List op → Nat
  | [] => 0
  | .start _ _ :: rest => count_starts rest + 1
  | .update _ :: rest => count_starts rest
  | .finish _ _ :: rest => count_starts rest

/-- Number of `finish` calls of a sequence run from `s` that target a pair which
is active, that is present in the lookup index, at the moment of the call. -/
def count_finishes (s : scoreboard) : List op → Nat
  | [] => 0
  | o :: rest =>
    (match o with
      | .finish h a => if s.active h a then 1 else 0
      | _ => 0) +
    (match step s o with
      | none => 0
      | some s1 => count_finishes s1 rest)

/-- A sequence of calls in the style of the repository's tests: two contests are
started and the second one scores. -/
def example_ops : List op :=
  [.start "T1" "T2", .start "T3" "T4", .update ⟨"T3", "T4", 1, 0⟩]

/-- The scoreboard after `example_ops`. -/
def example_board : scoreboard := (run scoreboard.empty example_ops).getD scoreboard.empty

/-- A sequence of calls that starts the pair T1, T2 twice. -/
def duplicate_ops : List op :=
  [.start "T1" "T2", .update ⟨"T1", "T2", 1, 0⟩, .start "T1" "T2", .update ⟨"T1", "T2", 2, 0⟩]

/-- The calls after the two starts in `tie_board`: the contest started second
reaches the score 1-0 first. -/
def tie_updates : List op := [.update ⟨"T3", "T4", 1, 0⟩, .update ⟨"T1", "T2", 1, 0⟩]

/-- The scoreboard after starting T1-T2, then T3-T4, then `tie_updates`. -/
def tie_board : scoreboard :=
  (run scoreboard.empty (.start "T1" "T2" :: .start "T3" "T4" :: tie_updates)).getD
    scoreboard.empty

/-- The call operator of `std::hash<match>`: the bitwise and of the hashes of the
two names. The library hash of a string, `std::hash<std::string>`, is a
parameter. -/
def Match.hash (string_hash : String → Nat) (s : Match) : Nat :=
  string_hash s.home &&& string_hash s.away

/-- No two pairs of the lookup index are mapped to the same sequence number. -/
def MapInj (s : scoreboard) : Prop :=
  ∀ k1 k2 m1 m2 o, s.match_to_order k1 = some (m1, o) →
    s.match_to_order k2 = some (m2, o) → k1 = k2

/-- The node `n` is in the rank index of `s` and out of reach of the lookup
index: no entry carries its sequence number, which is below the counter. -/
def Orphan (n : match_node) (s : scoreboard) : Prop :=
  n ∈ s.board ∧ n.order < s.counter ∧
    ∀ k m o, s.match_to_order k = some (m, o) → o ≠ n.order

/-- A sequence of calls with a score whose total does not fit an `int`. -/
def overflow_ops : List op :=
  [.start "T1" "T2", .update ⟨"T1", "T2", 2147483647, 1⟩]

/-- The scoreboard after `overflow_ops`. -/
def overflow_board : scoreboard :=
  (run scoreboard.empty overflow_ops).getD scoreboard.empty

/-- The scoreboard after T1-T2 is started and scores. -/
def scored_board : scoreboard :=
  (run scoreboard.empty [.start "T1" "T2", .update ⟨"T1", "T2", 1, 0⟩]).getD scoreboard.empty

/-! ## The rank order -/

theorem wrap_int_of_range {x : Int} (h1 : -2147483648 ≤ x) (h2 : x ≤ 2147483647) :
    wrap_int x = x := by
  unfold wrap_int
  omega

theorem int_total_of_range {a : Match} (h : a.in_range) : a.int_total = a.total :=
  wrap_int_of_range h.1 h.2

theorem int_total_congr {a b : Match} (h : a.total = b.total) : a.int_total = b.int_total := by
  unfold Match.int_total int_add
  unfold Match.total at h
  rw [h]

theorem lt_iff (a b : match_node) :
    a.lt b = true ↔
      b.m.int_total < a.m.int_total ∨ (a.m.int_total = b.m.int_total ∧ a.order < b.order) := by
  unfold match_node.lt Match.int_total
  split <;> simp <;> omega

theorem lt_exact_iff (a b : match_node) :
    a.lt_exact b = true ↔
      b.m.total < a.m.total ∨ (a.m.total = b.m.total ∧ a.order < b.order) := by
  unfold match_node.lt_exact Match.total
  split <;> simp <;> omega

/-- Where neither sum overflows, `operator<` is the exact rank order. -/
theorem lt_eq_lt_exact {a b : match_node} (ha : a.m.in_range) (hb : b.m.in_range) :
    a.lt b = a.lt_exact b := by
  have h1 := lt_iff a b
  have h2 := lt_exact_iff a b
  rw [int_total_of_range ha, int_total_of_range hb] at h1
  cases hab : a.lt b <;> cases hex : a.lt_exact b <;> simp [hab, hex] at h1 h2 ⊢ <;> omega

theorem equiv_iff (a b : match_node) :
    a.equiv b = true ↔ a.m.int_total = b.m.int_total ∧ a.order = b.order := by
  have h1 := lt_iff a b
  have h2 := lt_iff b a
  unfold match_node.equiv
  cases hab : a.lt b <;> cases hba : b.lt a <;> simp [hab, hba] at h1 h2 ⊢ <;> omega

theorem lt_irrefl (a : match_node) : a.lt a = false := by
  have h := lt_iff a a
  cases ha : a.lt a
  · rfl
  · rw [ha] at h; simp at h

theorem lt_asymm {a b : match_node} (h : a.lt b = true) : b.lt a = false := by
  have h1 := (lt_iff a b).1 h
  have h2 := lt_iff b a
  cases hba : b.lt a
  · rfl
  · rw [hba] at h2; simp at h2; omega

theorem lt_trans {a b c : match_node} (h1 : a.lt b = true) (h2 : b.lt c = true) :
    a.lt c = true := by
  rw [lt_iff] at *
  omega

theorem equiv_self (a : match_node) : a.equiv a = true := by
  rw [equiv_iff]; exact ⟨rfl, rfl⟩

/-- Two matches are equal for `operator==` exactly when they name the same pair,
which is why the lookup index is keyed by the pair. -/
theorem eq_iff_ident (a b : Match) : a.eq b = true ↔ a.ident = b.ident := by
  simp [Match.eq, Match.ident]

/-! ## The ordered container -/

theorem mem_set_insert {x y : match_node} {l : List match_node} (h : y ∈ set_insert x l) :
    y = x ∨ y ∈ l := by
  induction l with
  | nil => simp [set_insert] at h; exact Or.inl h
  | cons z zs ih =>
    unfold set_insert at h
    split at h
    · simp at h ⊢; tauto
    · split at h
      · simp at h ⊢
        rcases h with h | h
        · tauto
        · rcases ih h with h | h <;> tauto
      · exact Or.inr h

theorem mem_set_insert_of_mem {x y : match_node} {l : List match_node} (h : y ∈ l) :
    y ∈ set_insert x l := by
  induction l with
  | nil => simp at h
  | cons z zs ih =>
    unfold set_insert
    split
    · simp at h ⊢; tauto
    · split
      · simp at h ⊢
        rcases h with h | h
        · exact Or.inl h
        · exact Or.inr (ih h)
      · exact h

theorem set_insert_sorted (x : match_node) {l : List match_node} (h : Sorted l) :
    Sorted (set_insert x l) := by
  induction l with
  | nil => simp [set_insert, Sorted]
  | cons z zs ih =>
    unfold Sorted at h ih ⊢
    rw [List.pairwise_cons] at h
    unfold set_insert
    split
    · rename_i hxz
      rw [List.pairwise_cons]
      refine ⟨?_, List.pairwise_cons.2 h⟩
      intro w hw
      rcases List.mem_cons.1 hw with hw | hw
      · rw [hw]; exact hxz
      · exact lt_trans hxz (h.1 w hw)
    · split
      · rename_i hzx
        rw [List.pairwise_cons]
        refine ⟨?_, ih h.2⟩
        intro w hw
        rcases mem_set_insert hw with hw | hw
        · rw [hw]; exact hzx
        · exact h.1 w hw
      · exact List.pairwise_cons.2 h

theorem set_erase_sublist (x : match_node) (l : List match_node) :
    List.Sublist (set_erase x l) l := by
  induction l with
  | nil => simp [set_erase]
  | cons z zs ih =>
    unfold set_erase
    split
    · exact List.sublist_cons_self z zs
    · exact List.Sublist.cons₂ z ih

theorem set_erase_sorted (x : match_node) {l : List match_node} (h : Sorted l) :
    Sorted (set_erase x l) :=
  List.Pairwise.sublist (set_erase_sublist x l) h

theorem mem_of_mem_set_erase {x y : match_node} {l : List match_node}
    (h : y ∈ set_erase x l) : y ∈ l :=
  (set_erase_sublist x l).subset h

/-- Inserting an element that every element of the container precedes puts it last. -/
theorem set_insert_last {x : match_node} {l : List match_node}
    (h : ∀ y ∈ l, y.lt x = true) : set_insert x l = l ++ [x] := by
  induction l with
  | nil => rfl
  | cons z zs ih =>
    have hz := h z (List.mem_cons_self z zs)
    have ih1 := ih (fun y hy => h y (List.mem_cons_of_mem z hy))
    unfold set_insert
    simp [lt_asymm hz, hz, ih1]

/-- Inserting an element with no equivalent in the container puts it somewhere,
leaving the other elements as they are. -/
theorem set_insert_split {x : match_node} {l : List match_node}
    (h : ∀ y ∈ l, x.equiv y = false) :
    ∃ r1 r2, l = r1 ++ r2 ∧ set_insert x l = r1 ++ x :: r2 := by
  induction l with
  | nil => exact ⟨[], [], rfl, rfl⟩
  | cons z zs ih =>
    have hz := h z (List.mem_cons_self z zs)
    obtain ⟨r1, r2, e1, e2⟩ := ih (fun y hy => h y (List.mem_cons_of_mem z hy))
    unfold set_insert
    split
    · exact ⟨[], z :: zs, rfl, rfl⟩
    · split
      · exact ⟨z :: r1, r2, by rw [e1]; rfl, by rw [e2]; rfl⟩
      · rename_i h1 h2
        simp [match_node.equiv, h1, h2] at hz

/-- Erasing an element of a sorted container takes out exactly that element. -/
theorem set_erase_split {x : match_node} {l : List match_node} (hs : Sorted l) (hx : x ∈ l) :
    ∃ l1 l2, l = l1 ++ x :: l2 ∧ set_erase x l = l1 ++ l2 := by
  induction l with
  | nil => simp at hx
  | cons z zs ih =>
    unfold Sorted at hs ih
    rw [List.pairwise_cons] at hs
    unfold set_erase
    rcases List.mem_cons.1 hx with hx | hx
    · subst hx
      simp only [equiv_self, if_true]
      exact ⟨[], zs, rfl, rfl⟩
    · have hzx := hs.1 x hx
      have hne : x.equiv z = false := by
        simp [match_node.equiv, hzx]
      obtain ⟨l1, l2, e1, e2⟩ := ih hs.2 hx
      simp only [hne]
      exact ⟨z :: l1, l2, by rw [e1]; rfl, by rw [e2]; rfl⟩

/-- Erasing a key with no equivalent in the container changes nothing. -/
theorem set_erase_absent {x : match_node} {l : List match_node}
    (h : ∀ y ∈ l, x.equiv y = false) : set_erase x l = l := by
  induction l with
  | nil => rfl
  | cons z zs ih =>
    unfold set_erase
    simp [h z (List.mem_cons_self z zs), ih (fun y hy => h y (List.mem_cons_of_mem z hy))]

theorem sorted_ne {z : match_node} {zs : List match_node} (hs : Sorted (z :: zs))
    {n : match_node} (hn : n ∈ zs) : n ≠ z := by
  unfold Sorted at hs
  rw [List.pairwise_cons] at hs
  intro e
  have h := hs.1 n hn
  rw [e, lt_irrefl] at h
  exact Bool.noConfusion h

theorem mem_set_erase_iff {x n : match_node} {l : List match_node} (hs : Sorted l)
    (hx : x ∈ l) : n ∈ set_erase x l ↔ n ∈ l ∧ n ≠ x := by
  induction l with
  | nil => simp at hx
  | cons z zs ih =>
    have hs2 : Sorted zs := (List.pairwise_cons.1 hs).2
    unfold set_erase
    by_cases hxz : x = z
    · subst hxz
      simp only [equiv_self, if_true, List.mem_cons]
      constructor
      · intro h; exact ⟨Or.inr h, sorted_ne hs h⟩
      · rintro ⟨h | h, h2⟩
        · exact absurd h h2
        · exact h
    · have hx2 : x ∈ zs := by
        rcases List.mem_cons.1 hx with h | h
        · exact absurd h hxz
        · exact h
      have hne : x.equiv z = false := by
        have := (List.pairwise_cons.1 hs).1 x hx2
        simp [match_node.equiv, this]
      have e : (if x.equiv z = true then zs else z :: set_erase x zs) = z :: set_erase x zs := by
        simp [hne]
      rw [e, List.mem_cons, List.mem_cons, ih hs2 hx2]
      constructor
      · rintro (h | ⟨h, h2⟩)
        · exact ⟨Or.inl h, by rw [h]; exact fun e => hxz e.symm⟩
        · exact ⟨Or.inr h, h2⟩
      · rintro ⟨h | h, h2⟩
        · exact Or.inl h
        · exact Or.inr ⟨h, h2⟩

theorem mem_set_insert_self {x : match_node} {l : List match_node}
    (h : ∀ y ∈ l, x.equiv y = false) : x ∈ set_insert x l := by
  obtain ⟨r1, r2, _, e⟩ := set_insert_split h
  rw [e]; simp

theorem not_equiv_of_order_ne {x y : match_node} (h : x.order ≠ y.order) :
    x.equiv y = false := by
  cases he : x.equiv y
  · rfl
  · exact absurd ((equiv_iff x y).1 he).2 h

/-! ## The methods, case by case -/

theorem finish_none {s : scoreboard} {home away : String}
    (h : s.match_to_order (home, away) = none) : s.finish home away = s := by
  simp only [scoreboard.finish, map_find, Match.start, Match.ident, h]

theorem finish_some {s : scoreboard} {home away : String} {old : Match} {o : Nat}
    (h : s.match_to_order (home, away) = some (old, o)) :
    s.finish home away =
      { counter := s.counter
        board := set_erase ⟨old, o⟩ s.board
        match_to_order := map_erase s.match_to_order (Match.start home away) } := by
  simp only [scoreboard.finish, map_find, Match.start, Match.ident, h]

theorem update_none {s : scoreboard} {m : Match}
    (h : s.match_to_order m.ident = none) : s.update m = none := by
  simp only [scoreboard.update, map_find, h]

theorem update_some {s : scoreboard} {m old : Match} {o : Nat}
    (h : s.match_to_order m.ident = some (old, o)) :
    s.update m = some
      { counter := s.counter
        board := set_insert ⟨m, o⟩ (set_erase ⟨old, o⟩ s.board)
        match_to_order := map_assign (map_erase s.match_to_order m) m o } := by
  simp only [scoreboard.update, map_find, h]

/-! ## The invariants -/

theorem inv_empty : Inv scoreboard.empty :=
  ⟨List.Pairwise.nil, by simp [scoreboard.empty], by simp [scoreboard.empty]⟩

theorem inv_start {s : scoreboard} (h : Inv s) (home away : String) :
    Inv (s.start home away) := by
  refine ⟨set_insert_sorted _ h.sorted, ?_, ?_⟩
  · intro n hn
    rcases mem_set_insert hn with hn | hn
    · subst hn; simp [scoreboard.start]
    · have := h.board_lt n hn
      simp only [scoreboard.start]; omega
  · intro k m o hk
    simp only [scoreboard.start, map_assign] at hk ⊢
    split at hk
    · split at hk <;> (simp at hk; omega)
    · have := h.map_lt k m o hk; omega

theorem inv_update {s s1 : scoreboard} (h : Inv s) {m : Match} (hu : s.update m = some s1) :
    Inv s1 := by
  unfold scoreboard.update map_find at hu
  split at hu
  · exact Option.noConfusion hu
  · rename_i old o hf
    have ho := h.map_lt _ _ _ hf
    simp only [Option.some.injEq] at hu
    subst hu
    refine ⟨set_insert_sorted _ (set_erase_sorted _ h.sorted), ?_, ?_⟩
    · intro n hn
      rcases mem_set_insert hn with hn | hn
      · subst hn; exact ho
      · exact h.board_lt n (mem_of_mem_set_erase hn)
    · intro k m1 o1 hk
      simp only [map_assign, map_erase] at hk
      split at hk
      · simp only [Option.some.injEq, Prod.mk.injEq] at hk
        rw [← hk.2]; exact ho
      · exact h.map_lt k m1 o1 hk

theorem inv_finish {s : scoreboard} (h : Inv s) (home away : String) :
    Inv (s.finish home away) := by
  cases hf : s.match_to_order (home, away) with
  | none => rw [finish_none hf]; exact h
  | some e =>
    obtain ⟨old, o⟩ := e
    rw [finish_some hf]
    refine ⟨set_erase_sorted _ h.sorted, ?_, ?_⟩
    · intro n hn
      exact h.board_lt n (mem_of_mem_set_erase hn)
    · intro k m1 o1 hk
      simp only [map_erase] at hk
      split at hk
      · exact Option.noConfusion hk
      · exact h.map_lt k m1 o1 hk

theorem inv_step {s s1 : scoreboard} (h : Inv s) {o : op} (hs : step s o = some s1) :
    Inv s1 := by
  cases o with
  | start a b => simp only [step, Option.some.injEq] at hs; subst hs; exact inv_start h a b
  | update m => exact inv_update h hs
  | finish a b => simp only [step, Option.some.injEq] at hs; subst hs; exact inv_finish h a b

theorem inv_run {ops : List op} {s s1 : scoreboard} (h : Inv s) (hr : run s ops = some s1) :
    Inv s1 := by
  induction ops generalizing s with
  | nil => simp only [run, Option.some.injEq] at hr; subst hr; exact h
  | cons o rest ih =>
    unfold run at hr
    split at hr
    · exact Option.noConfusion hr
    · rename_i s2 hs2
      exact ih (inv_step h hs2) hr

theorem inv_of_reachable {s : scoreboard} (h : Reachable s) : Inv s := by
  obtain ⟨ops, hr⟩ := h
  exact inv_run inv_empty hr

theorem invF_empty : InvF scoreboard.empty :=
  ⟨inv_empty, by simp [scoreboard.empty], by simp [scoreboard.empty],
    by simp [scoreboard.empty]⟩

theorem start_no_equiv {s : scoreboard} (h : Inv s) (m : Match) :
    ∀ y ∈ s.board, (match_node.mk m s.counter).equiv y = false := by
  intro y hy
  apply not_equiv_of_order_ne
  have := h.board_lt y hy
  simp only [ne_eq]; omega

theorem invF_start {s : scoreboard} (h : InvF s) {home away : String}
    (hn : s.match_to_order (home, away) = none) : InvF (s.start home away) := by
  have hx := start_no_equiv h.inv (Match.start home away)
  refine ⟨inv_start h.inv home away, ?_, ?_, ?_⟩
  · intro k m o hk
    simp only [scoreboard.start, map_assign] at hk ⊢
    by_cases hki : k = (Match.start home away).ident
    · rw [if_pos hki] at hk
      have hk0 : s.match_to_order k = none := by rw [hki]; exact hn
      rw [hk0] at hk
      simp only [Option.some.injEq, Prod.mk.injEq] at hk
      rw [← hk.1, ← hk.2]
      exact ⟨hki.symm, mem_set_insert_self hx⟩
    · rw [if_neg hki] at hk
      have := h.map_board k m o hk
      exact ⟨this.1, mem_set_insert_of_mem this.2⟩
  · intro n hn1
    simp only [scoreboard.start, map_assign] at hn1 ⊢
    rcases mem_set_insert hn1 with e | hin
    · subst e
      have e2 : s.match_to_order (Match.start home away).ident = none := hn
      simp only [if_true, e2]
    · have hb := h.board_map n hin
      have hne : n.m.ident ≠ (Match.start home away).ident := by
        intro e
        rw [e] at hb
        have e2 : s.match_to_order (Match.start home away).ident = none := hn
        rw [e2] at hb
        exact Option.noConfusion hb
      rw [if_neg hne]; exact hb
  · intro n1 h1 n2 h2 e
    simp only [scoreboard.start] at h1 h2
    rcases mem_set_insert h1 with e1 | h1 <;> rcases mem_set_insert h2 with e2 | h2
    · rw [e1, e2]
    · have := h.inv.board_lt n2 h2
      rw [e1] at e; simp only at e; omega
    · have := h.inv.board_lt n1 h1
      rw [e2] at e; simp only at e; omega
    · exact h.order_inj n1 h1 n2 h2 e

/-- In a state with matching indexes, what `update` does to the rank index: the
node of the pair is taken out and the new node is put in, the rest stays. -/
theorem update_board {s : scoreboard} (h : InvF s) {m old : Match} {o : Nat}
    (hf : s.match_to_order m.ident = some (old, o)) :
    (∀ y ∈ set_erase ⟨old, o⟩ s.board, (match_node.mk m o).equiv y = false) ∧
    ∀ n, n ∈ set_insert ⟨m, o⟩ (set_erase ⟨old, o⟩ s.board) ↔
      n = ⟨m, o⟩ ∨ (n ∈ s.board ∧ n ≠ ⟨old, o⟩) := by
  have hold := (h.map_board _ _ _ hf).2
  have hne : ∀ y ∈ set_erase ⟨old, o⟩ s.board, (match_node.mk m o).equiv y = false := by
    intro y hy
    rw [mem_set_erase_iff h.inv.sorted hold] at hy
    apply not_equiv_of_order_ne
    intro e
    exact hy.2 (h.order_inj y hy.1 _ hold e.symm)
  refine ⟨hne, fun n => ⟨fun hn => ?_, fun hn => ?_⟩⟩
  · rcases mem_set_insert hn with e | hn
    · exact Or.inl e
    · exact Or.inr ((mem_set_erase_iff h.inv.sorted hold).1 hn)
  · rcases hn with e | hn
    · rw [e]; exact mem_set_insert_self hne
    · exact mem_set_insert_of_mem ((mem_set_erase_iff h.inv.sorted hold).2 hn)

theorem invF_update {s s1 : scoreboard} (h : InvF s) {m : Match}
    (hu : s.update m = some s1) : InvF s1 := by
  have hi := inv_update h.inv hu
  cases hf : s.match_to_order m.ident with
  | none => rw [update_none hf] at hu; exact Option.noConfusion hu
  | some e =>
    obtain ⟨old, o⟩ := e
    rw [update_some hf, Option.some.injEq] at hu
    obtain ⟨_, hmem⟩ := update_board h hf
    have hoi := (h.map_board _ _ _ hf).1
    subst hu
    refine ⟨hi, ?_, ?_, ?_⟩
    · intro k m1 o1 hk
      simp only [map_assign, map_erase] at hk ⊢
      rw [hmem]
      by_cases hki : k = m.ident
      · simp only [hki, if_true, Option.some.injEq, Prod.mk.injEq] at hk
        rw [← hk.1, ← hk.2]
        exact ⟨hki.symm, Or.inl rfl⟩
      · simp only [hki, if_false] at hk
        have hb := h.map_board k m1 o1 hk
        refine ⟨hb.1, Or.inr ⟨hb.2, ?_⟩⟩
        intro e
        simp only [match_node.mk.injEq] at e
        apply hki
        rw [← hb.1, e.1, hoi]
    · intro n hn
      simp only [map_assign, map_erase] at hn ⊢
      rw [hmem] at hn
      rcases hn with e | ⟨hn, hne⟩
      · subst e; simp
      · have hb := h.board_map n hn
        have hki : n.m.ident ≠ m.ident := by
          intro e
          rw [e, hf] at hb
          simp only [Option.some.injEq, Prod.mk.injEq] at hb
          apply hne
          cases n
          simp only [match_node.mk.injEq]
          exact ⟨hb.1.symm, hb.2.symm⟩
        simp only [hki, if_false]
        exact hb
    · intro n1 h1 n2 h2 e
      simp only at h1 h2
      rw [hmem] at h1 h2
      have hold := (h.map_board _ _ _ hf).2
      rcases h1 with e1 | ⟨h1, hne1⟩ <;> rcases h2 with e2 | ⟨h2, hne2⟩
      · rw [e1, e2]
      · exfalso; apply hne2
        apply h.order_inj n2 h2 _ hold
        rw [← e, e1]
      · exfalso; apply hne1
        apply h.order_inj n1 h1 _ hold
        rw [e, e2]
      · exact h.order_inj n1 h1 n2 h2 e

theorem invF_finish {s : scoreboard} (h : InvF s) (home away : String) :
    InvF (s.finish home away) := by
  have hi := inv_finish h.inv home away
  cases hf : s.match_to_order (home, away) with
  | none => rw [finish_none hf]; exact h
  | some e =>
    obtain ⟨old, o⟩ := e
    rw [finish_some hf] at hi ⊢
    have hold := h.map_board _ _ _ hf
    refine ⟨hi, ?_, ?_, ?_⟩
    · intro k m1 o1 hk
      simp only [map_erase] at hk ⊢
      by_cases hki : k = (Match.start home away).ident
      · simp [hki] at hk
      · simp only [hki, if_false] at hk
        have hb := h.map_board k m1 o1 hk
        refine ⟨hb.1, (mem_set_erase_iff h.inv.sorted hold.2).2 ⟨hb.2, ?_⟩⟩
        intro e
        simp only [match_node.mk.injEq] at e
        apply hki
        rw [← hb.1, e.1, hold.1]; rfl
    · intro n hn
      simp only [map_erase] at hn ⊢
      rw [mem_set_erase_iff h.inv.sorted hold.2] at hn
      have hb := h.board_map n hn.1
      have hki : n.m.ident ≠ (Match.start home away).ident := by
        intro e
        have e2 : n.m.ident = (home, away) := e
        rw [e2, hf] at hb
        simp only [Option.some.injEq, Prod.mk.injEq] at hb
        apply hn.2
        cases n
        simp only [match_node.mk.injEq]
        exact ⟨hb.1.symm, hb.2.symm⟩
      simp only [hki, if_false]
      exact hb
    · intro n1 h1 n2 h2 e
      exact h.order_inj n1 (mem_of_mem_set_erase h1) n2 (mem_of_mem_set_erase h2) e

/-! ## Sequences of calls -/

theorem fresh_starts_cons_iff {s : scoreboard} {o : op} {rest : List op} :
    fresh_starts s (o :: rest) = true ↔
      fresh_call s o = true ∧ ∃ s1, step s o = some s1 ∧ fresh_starts s1 rest = true := by
  rw [fresh_starts, Bool.and_eq_true]
  cases step s o <;> simp

theorem fresh_call_start {s : scoreboard} {o : op} (h : fresh_call s o = true) :
    ∀ a b, o = .start a b → s.match_to_order (a, b) = none := by
  intro a b e
  subst e
  simp only [fresh_call, scoreboard.active, Bool.not_eq_true'] at h
  cases hm : s.match_to_order (a, b) with
  | none => rfl
  | some e => rw [hm] at h; exact Bool.noConfusion h

theorem run_cons {s s1 : scoreboard} {o : op} {rest : List op}
    (h : run s (o :: rest) = some s1) : ∃ s2, step s o = some s2 ∧ run s2 rest = some s1 := by
  unfold run at h
  split at h
  · exact Option.noConfusion h
  · rename_i s2 hs2
    exact ⟨s2, hs2, h⟩

theorem run_append {a b : List op} {s s1 : scoreboard} (h : run s (a ++ b) = some s1) :
    ∃ s2, run s a = some s2 ∧ run s2 b = some s1 := by
  induction a generalizing s with
  | nil => exact ⟨s, rfl, h⟩
  | cons o rest ih =>
    obtain ⟨s2, hs2, hr⟩ := run_cons h
    obtain ⟨s3, h3, h4⟩ := ih hr
    refine ⟨s3, ?_, h4⟩
    unfold run
    rw [hs2]
    exact h3

theorem fresh_starts_append {a b : List op} {s s1 : scoreboard}
    (h : fresh_starts s (a ++ b) = true) (hr : run s a = some s1) :
    fresh_starts s a = true ∧ fresh_starts s1 b = true := by
  induction a generalizing s with
  | nil =>
    simp only [run, Option.some.injEq] at hr
    subst hr
    exact ⟨rfl, h⟩
  | cons o rest ih =>
    obtain ⟨s2, hs2, hr2⟩ := run_cons hr
    have hc := fresh_starts_cons_iff.1 h
    obtain ⟨s3, hs3, hf3⟩ := hc.2
    rw [hs2, Option.some.injEq] at hs3
    subst hs3
    have := ih hf3 hr2
    exact ⟨fresh_starts_cons_iff.2 ⟨hc.1, s2, hs2, this.1⟩, this.2⟩

theorem invF_step {s s1 : scoreboard} (h : InvF s) {o : op} (hs : step s o = some s1)
    (hn : ∀ a b, o = .start a b → s.match_to_order (a, b) = none) : InvF s1 := by
  cases o with
  | start a b =>
    simp only [step, Option.some.injEq] at hs; subst hs
    exact invF_start h (hn a b rfl)
  | update m => exact invF_update h hs
  | finish a b => simp only [step, Option.some.injEq] at hs; subst hs; exact invF_finish h a b

theorem invF_run {ops : List op} {s s1 : scoreboard} (h : InvF s)
    (hf : fresh_starts s ops = true) (hr : run s ops = some s1) : InvF s1 := by
  induction ops generalizing s with
  | nil => simp only [run, Option.some.injEq] at hr; subst hr; exact h
  | cons o rest ih =>
    obtain ⟨s2, hs2, hr2⟩ := run_cons hr
    have hc := fresh_starts_cons_iff.1 hf
    obtain ⟨s3, hs3, hf3⟩ := hc.2
    rw [hs2, Option.some.injEq] at hs3
    subst hs3
    exact ih (invF_step h hs2 (fresh_call_start hc.1)) hf3 hr2

theorem invF_of_reachableFresh {s : scoreboard} (h : ReachableFresh s) : InvF s := by
  obtain ⟨ops, hf, hr⟩ := h
  exact invF_run invF_empty hf hr

theorem step_counter_le {s s1 : scoreboard} {o : op} (hs : step s o = some s1) :
    s.counter ≤ s1.counter := by
  cases o with
  | start a b =>
    simp only [step, Option.some.injEq] at hs; subst hs
    simp only [scoreboard.start]; omega
  | update m =>
    simp only [step] at hs
    cases hf : s.match_to_order m.ident with
    | none => rw [update_none hf] at hs; exact Option.noConfusion hs
    | some e =>
      rw [update_some hf, Option.some.injEq] at hs
      subst hs; exact Nat.le_refl _
  | finish a b =>
    simp only [step, Option.some.injEq] at hs; subst hs
    cases hf : s.match_to_order (a, b) with
    | none => rw [finish_none hf]
    | some e => rw [finish_some hf]

theorem run_counter_le {ops : List op} {s s1 : scoreboard} (hr : run s ops = some s1) :
    s.counter ≤ s1.counter := by
  induction ops generalizing s with
  | nil => simp only [run, Option.some.injEq] at hr; subst hr; exact Nat.le_refl _
  | cons o rest ih =>
    obtain ⟨s2, hs2, hr2⟩ := run_cons hr
    exact Nat.le_trans (step_counter_le hs2) (ih hr2)

/-- A call that neither starts nor finishes the pair keeps its sequence number. -/
theorem step_keeps_order {s s1 : scoreboard} {o : op} (hs : step s o = some s1)
    {home away : String} (h1 : o ≠ .start home away) (h2 : o ≠ .finish home away)
    {m : Match} {n : Nat} (hm : s.match_to_order (home, away) = some (m, n)) :
    ∃ m1, s1.match_to_order (home, away) = some (m1, n) := by
  cases o with
  | start a b =>
    simp only [step, Option.some.injEq] at hs; subst hs
    have hne : (home, away) ≠ (Match.start a b).ident := by
      intro e
      simp only [Match.start, Match.ident, Prod.mk.injEq] at e
      apply h1; rw [e.1, e.2]
    refine ⟨m, ?_⟩
    simp only [scoreboard.start, map_assign, if_neg hne]
    exact hm
  | update m1 =>
    simp only [step] at hs
    cases hf : s.match_to_order m1.ident with
    | none => rw [update_none hf] at hs; exact Option.noConfusion hs
    | some e =>
      obtain ⟨old, o⟩ := e
      rw [update_some hf, Option.some.injEq] at hs
      subst hs
      simp only [map_assign, map_erase]
      by_cases hk : (home, away) = m1.ident
      · rw [← hk, hm] at hf
        simp only [Option.some.injEq, Prod.mk.injEq] at hf
        refine ⟨m1, ?_⟩
        simp only [hk, if_true, hf.2]
      · refine ⟨m, ?_⟩
        simp only [hk, if_false]
        exact hm
  | finish a b =>
    simp only [step, Option.some.injEq] at hs; subst hs
    have hne : (home, away) ≠ (Match.start a b).ident := by
      intro e
      simp only [Match.start, Match.ident, Prod.mk.injEq] at e
      apply h2; rw [e.1, e.2]
    refine ⟨m, ?_⟩
    cases hf : s.match_to_order (a, b) with
    | none => rw [finish_none hf]; exact hm
    | some e =>
      rw [finish_some hf]
      simp only [map_erase, if_neg hne]
      exact hm

/-- A call that does not start the pair leaves it inactive if it was. -/
theorem step_keeps_absent {s s1 : scoreboard} {o : op} (hs : step s o = some s1)
    {home away : String} (h1 : o ≠ .start home away)
    (hm : s.match_to_order (home, away) = none) : s1.match_to_order (home, away) = none := by
  cases o with
  | start a b =>
    simp only [step, Option.some.injEq] at hs; subst hs
    have hne : (home, away) ≠ (Match.start a b).ident := by
      intro e
      simp only [Match.start, Match.ident, Prod.mk.injEq] at e
      apply h1; rw [e.1, e.2]
    simp only [scoreboard.start, map_assign, if_neg hne]
    exact hm
  | update m1 =>
    simp only [step] at hs
    cases hf : s.match_to_order m1.ident with
    | none => rw [update_none hf] at hs; exact Option.noConfusion hs
    | some e =>
      obtain ⟨old, o⟩ := e
      rw [update_some hf, Option.some.injEq] at hs
      subst hs
      have hk : (home, away) ≠ m1.ident := by
        intro e; rw [← e, hm] at hf; exact Option.noConfusion hf
      simp only [map_assign, map_erase, if_neg hk]
      exact hm
  | finish a b =>
    simp only [step, Option.some.injEq] at hs; subst hs
    cases hf : s.match_to_order (a, b) with
    | none => rw [finish_none hf]; exact hm
    | some e =>
      rw [finish_some hf]
      simp only [map_erase]
      split
      · rfl
      · exact hm

theorem finish_makes_absent (s : scoreboard) (home away : String) :
    (s.finish home away).match_to_order (home, away) = none := by
  cases hf : s.match_to_order (home, away) with
  | none => rw [finish_none hf]; exact hf
  | some e =>
    rw [finish_some hf]
    simp [map_erase, Match.start, Match.ident]

theorem run_keeps_order {ops : List op} {s s1 : scoreboard} (hr : run s ops = some s1)
    {home away : String} (h1 : op.start home away ∉ ops) (h2 : op.finish home away ∉ ops)
    {m : Match} {n : Nat} (hm : s.match_to_order (home, away) = some (m, n)) :
    ∃ m1, s1.match_to_order (home, away) = some (m1, n) := by
  induction ops generalizing s m with
  | nil => simp only [run, Option.some.injEq] at hr; subst hr; exact ⟨m, hm⟩
  | cons o rest ih =>
    obtain ⟨s2, hs2, hr2⟩ := run_cons hr
    rw [List.mem_cons, not_or] at h1 h2
    obtain ⟨m2, hm2⟩ := step_keeps_order hs2 (Ne.symm h1.1) (Ne.symm h2.1) hm
    exact ih hr2 h1.2 h2.2 hm2

/-- A pair that is finished and not started again, or was inactive and is not
started, is inactive at the end. -/
theorem run_ends_absent {ops : List op} {s s1 : scoreboard} (hr : run s ops = some s1)
    {home away : String} (h1 : op.start home away ∉ ops)
    (h2 : op.finish home away ∈ ops ∨ s.match_to_order (home, away) = none) :
    s1.match_to_order (home, away) = none := by
  induction ops generalizing s with
  | nil =>
    simp only [run, Option.some.injEq] at hr; subst hr
    rcases h2 with h2 | h2
    · simp at h2
    · exact h2
  | cons o rest ih =>
    obtain ⟨s2, hs2, hr2⟩ := run_cons hr
    rw [List.mem_cons, not_or] at h1
    by_cases ho : o = op.finish home away
    · subst ho
      simp only [step, Option.some.injEq] at hs2; subst hs2
      exact ih hr2 h1.2 (Or.inr (finish_makes_absent s home away))
    · rcases h2 with h2 | h2
      · rcases List.mem_cons.1 h2 with h2 | h2
        · exact absurd h2.symm ho
        · exact ih hr2 h1.2 (Or.inl h2)
      · exact ih hr2 h1.2 (Or.inr (step_keeps_absent hs2 (Ne.symm h1.1) h2))

/-- In a sorted container a node that is less than another one comes before it. -/
theorem sorted_before {l : List match_node} (hs : Sorted l) {a b : match_node}
    (ha : a ∈ l) (hb : b ∈ l) (hab : a.lt b = true) :
    ∃ l1 l2 l3, l = l1 ++ a :: (l2 ++ b :: l3) := by
  obtain ⟨l1, r, e⟩ := List.append_of_mem ha
  unfold Sorted at hs
  rw [e, List.pairwise_append] at hs
  rw [e, List.mem_append, List.mem_cons] at hb
  rcases hb with hb | hb | hb
  · have := hs.2.2 b hb a (List.mem_cons_self a r)
    rw [lt_asymm hab] at this
    exact Bool.noConfusion this
  · rw [hb, lt_irrefl] at hab
    exact Bool.noConfusion hab
  · obtain ⟨l2, l3, e2⟩ := List.append_of_mem hb
    exact ⟨l1, l2, l3, by rw [e, e2]⟩

theorem start_assigns_counter (s : scoreboard) (home away : String) :
    ∃ m, (s.start home away).match_to_order (home, away) = some (m, s.counter) := by
  simp only [scoreboard.start, map_assign, Match.start, Match.ident, if_true]
  cases s.match_to_order (home, away) with
  | none => exact ⟨_, rfl⟩
  | some e => exact ⟨e.1, rfl⟩

theorem sorted_nodup {l : List match_node} (h : Sorted l) : l.Nodup := by
  unfold Sorted at h
  unfold List.Nodup
  refine List.Pairwise.imp ?_ h
  intro a b hab e
  rw [e, lt_irrefl] at hab
  exact Bool.noConfusion hab

theorem ident_inj {s : scoreboard} (h : InvF s) :
    ∀ n1 ∈ s.board, ∀ n2 ∈ s.board, n1.m.ident = n2.m.ident → n1 = n2 := by
  intro n1 h1 n2 h2 e
  have b1 := h.board_map n1 h1
  have b2 := h.board_map n2 h2
  rw [e, b2] at b1
  simp only [Option.some.injEq, Prod.mk.injEq] at b1
  cases n1; cases n2
  simp only [match_node.mk.injEq]
  exact ⟨b1.1.symm, b1.2.symm⟩

/-- In a state with matching indexes the node of an active pair sits at one place
of the rank index, and erasing it leaves the nodes of the other pairs. -/
theorem board_split_at {s : scoreboard} (h : InvF s) {k : String × String} {old : Match}
    {o : Nat} (hf : s.match_to_order k = some (old, o)) :
    ∃ b1 b2, s.board = b1 ++ ⟨old, o⟩ :: b2 ∧ set_erase ⟨old, o⟩ s.board = b1 ++ b2 ∧
      old.ident = k ∧ ∀ n ∈ b1 ++ b2, n.m.ident ≠ k := by
  have hold := h.map_board _ _ _ hf
  obtain ⟨b1, b2, e1, e2⟩ := set_erase_split h.inv.sorted hold.2
  refine ⟨b1, b2, e1, e2, hold.1, ?_⟩
  intro n hn e
  have hnd := sorted_nodup h.inv.sorted
  rw [e1, List.nodup_middle, List.nodup_cons] at hnd
  have hnb : n ∈ s.board := by
    rw [e1]
    rcases List.mem_append.1 hn with h1 | h1
    · exact List.mem_append_left _ h1
    · exact List.mem_append_right _ (List.mem_cons_of_mem _ h1)
  have := ident_inj h n hnb ⟨old, o⟩ hold.2 (by rw [e, hold.1])
  rw [this] at hn
  exact hnd.1 hn

theorem start_length {s : scoreboard} (h : Inv s) (home away : String) :
    (s.start home away).board.length = s.board.length + 1 := by
  obtain ⟨r1, r2, e1, e2⟩ := set_insert_split (start_no_equiv h (Match.start home away))
  simp only [scoreboard.start, e2]
  rw [e1]
  simp only [List.length_append, List.length_cons]
  omega

theorem update_length {s s1 : scoreboard} (h : InvF s) {m : Match}
    (hu : s.update m = some s1) : s1.board.length = s.board.length := by
  cases hf : s.match_to_order m.ident with
  | none => rw [update_none hf] at hu; exact Option.noConfusion hu
  | some e =>
    obtain ⟨old, o⟩ := e
    rw [update_some hf, Option.some.injEq] at hu
    subst hu
    obtain ⟨b1, b2, e1, e2, _, _⟩ := board_split_at h hf
    obtain ⟨r1, r2, e3, e4⟩ := set_insert_split (update_board h hf).1
    simp only [e4]
    have e5 : (r1 ++ r2).length = (b1 ++ b2).length := by rw [← e3, e2]
    rw [e1]
    simp only [List.length_append, List.length_cons] at e5 ⊢
    omega

theorem finish_length {s : scoreboard} (h : InvF s) (home away : String) :
    (s.finish home away).board.length + (if s.active home away then 1 else 0) =
      s.board.length := by
  cases hf : s.match_to_order (home, away) with
  | none => simp [finish_none hf, scoreboard.active, hf]
  | some e =>
    obtain ⟨old, o⟩ := e
    obtain ⟨b1, b2, e1, e2, _, _⟩ := board_split_at h hf
    rw [finish_some hf]
    simp only [scoreboard.active, hf, Option.isSome_some, if_true, e2]
    rw [e1]
    simp only [List.length_append, List.length_cons]
    omega

/-- Without a start of an active pair every start adds one node to the rank
index, every finish of an active pair removes one, and nothing else changes its
length. -/
theorem length_run {ops : List op} {s s1 : scoreboard} (h : InvF s)
    (hf : fresh_starts s ops = true) (hr : run s ops = some s1) :
    s1.board.length + count_finishes s ops = s.board.length + count_starts ops := by
  induction ops generalizing s with
  | nil =>
    simp only [run, Option.some.injEq] at hr; subst hr
    simp [count_finishes, count_starts]
  | cons o rest ih =>
    obtain ⟨s2, hs2, hr2⟩ := run_cons hr
    have hc := fresh_starts_cons_iff.1 hf
    obtain ⟨s3, hs3, hf3⟩ := hc.2
    rw [hs2, Option.some.injEq] at hs3
    subst hs3
    have ih1 := ih (invF_step h hs2 (fresh_call_start hc.1)) hf3 hr2
    unfold count_finishes
    rw [hs2]
    cases o with
    | start a b =>
      simp only [step, Option.some.injEq] at hs2; subst hs2
      have := start_length h.inv a b
      simp only [count_starts]
      omega
    | update m =>
      have := update_length h hs2
      simp only [count_starts]
      omega
    | finish a b =>
      simp only [step, Option.some.injEq] at hs2; subst hs2
      have := finish_length h a b
      simp only [count_starts]
      omega

theorem example_reachable : ReachableFresh example_board := ⟨example_ops, rfl, rfl⟩

theorem step_counter {s s1 : scoreboard} {o : op} (hs : step s o = some s1) :
    s1.counter = s.counter + count_starts [o] := by
  cases o with
  | start a b =>
    simp only [step, Option.some.injEq] at hs; subst hs
    rfl
  | update m =>
    simp only [step] at hs
    cases hf : s.match_to_order m.ident with
    | none => rw [update_none hf] at hs; exact Option.noConfusion hs
    | some e =>
      rw [update_some hf, Option.some.injEq] at hs
      subst hs; rfl
  | finish a b =>
    simp only [step, Option.some.injEq] at hs; subst hs
    cases hf : s.match_to_order (a, b) with
    | none => rw [finish_none hf]; rfl
    | some e => rw [finish_some hf]; rfl

theorem count_starts_cons (o : op) (rest : List op) :
    count_starts (o :: rest) = count_starts [o] + count_starts rest := by
  cases o with
  | start a b => simp only [count_starts]; omega
  | update m => simp only [count_starts]; omega
  | finish a b => simp only [count_starts]; omega

/-- The counter grows by the number of `start` calls of a sequence. -/
theorem run_counter {ops : List op} {s s1 : scoreboard} (hr : run s ops = some s1) :
    s1.counter = s.counter + count_starts ops := by
  induction ops generalizing s with
  | nil => simp only [run, Option.some.injEq] at hr; subst hr; rfl
  | cons o rest ih =>
    obtain ⟨s2, hs2, hr2⟩ := run_cons hr
    rw [ih hr2, step_counter hs2, count_starts_cons o rest]
    omega

/-- Erasing an element right after it was inserted gives the container back. -/
theorem set_erase_insert {x : match_node} {l : List match_node}
    (h : ∀ y ∈ l, x.equiv y = false) : set_erase x (set_insert x l) = l := by
  induction l with
  | nil => simp [set_insert, set_erase, equiv_self]
  | cons z zs ih =>
    have hz := h z (List.mem_cons_self z zs)
    have ih1 := ih (fun y hy => h y (List.mem_cons_of_mem z hy))
    unfold set_insert
    split
    · simp [set_erase, equiv_self]
    · split
      · unfold set_erase
        simp only [hz, Bool.false_eq_true, if_false, ih1]
      · rename_i h1 h2
        simp [match_node.equiv, h1, h2] at hz

theorem map_erase_assign {t : order_map} {k : Match} (v : Nat) (h : t k.ident = none) :
    map_erase (map_assign t k v) k = t := by
  funext i
  simp only [map_erase, map_assign]
  by_cases hi : i = k.ident
  · rw [if_pos hi, hi, h]
  · rw [if_neg hi, if_neg hi]

theorem mapInj_step {s s1 : scoreboard} (hI : Inv s) (h : MapInj s) {o : op}
    (hs : step s o = some s1) : MapInj s1 := by
  cases o with
  | start a b =>
    simp only [step, Option.some.injEq] at hs; subst hs
    intro k1 k2 m1 m2 n h1 h2
    simp only [scoreboard.start, map_assign] at h1 h2
    by_cases e1 : k1 = (Match.start a b).ident <;> by_cases e2 : k2 = (Match.start a b).ident
    · rw [e1, e2]
    · rw [if_neg e2] at h2
      have hlt := hI.map_lt _ _ _ h2
      rw [if_pos e1] at h1
      split at h1 <;>
        (simp only [Option.some.injEq, Prod.mk.injEq] at h1; omega)
    · rw [if_neg e1] at h1
      have hlt := hI.map_lt _ _ _ h1
      rw [if_pos e2] at h2
      split at h2 <;>
        (simp only [Option.some.injEq, Prod.mk.injEq] at h2; omega)
    · rw [if_neg e1] at h1
      rw [if_neg e2] at h2
      exact h k1 k2 m1 m2 n h1 h2
  | update m =>
    simp only [step] at hs
    cases hf : s.match_to_order m.ident with
    | none => rw [update_none hf] at hs; exact Option.noConfusion hs
    | some e =>
      obtain ⟨old, o⟩ := e
      rw [update_some hf, Option.some.injEq] at hs
      subst hs
      intro k1 k2 m1 m2 n h1 h2
      simp only [map_assign, map_erase] at h1 h2
      by_cases e1 : k1 = m.ident <;> by_cases e2 : k2 = m.ident
      · rw [e1, e2]
      · simp only [e1, if_true, Option.some.injEq, Prod.mk.injEq] at h1
        simp only [e2, if_false] at h2
        rw [← h1.2] at h2
        rw [e1]
        exact h _ _ _ _ _ hf h2
      · simp only [e2, if_true, Option.some.injEq, Prod.mk.injEq] at h2
        simp only [e1, if_false] at h1
        rw [← h2.2] at h1
        rw [e2]
        exact h _ _ _ _ _ h1 hf
      · simp only [e1, if_false] at h1
        simp only [e2, if_false] at h2
        exact h k1 k2 m1 m2 n h1 h2
  | finish a b =>
    simp only [step, Option.some.injEq] at hs; subst hs
    cases hf : s.match_to_order (a, b) with
    | none => rw [finish_none hf]; exact h
    | some e =>
      rw [finish_some hf]
      intro k1 k2 m1 m2 n h1 h2
      simp only [map_erase] at h1 h2
      split at h1
      · exact Option.noConfusion h1
      · split at h2
        · exact Option.noConfusion h2
        · exact h k1 k2 m1 m2 n h1 h2

theorem mapInj_run {ops : List op} {s s1 : scoreboard} (hI : Inv s) (h : MapInj s)
    (hr : run s ops = some s1) : MapInj s1 := by
  induction ops generalizing s with
  | nil => simp only [run, Option.some.injEq] at hr; subst hr; exact h
  | cons o rest ih =>
    obtain ⟨s2, hs2, hr2⟩ := run_cons hr
    exact ih (inv_step hI hs2) (mapInj_step hI h hs2) hr2

theorem mapInj_of_reachable {s : scoreboard} (h : Reachable s) : MapInj s := by
  obtain ⟨ops, hr⟩ := h
  refine mapInj_run inv_empty ?_ hr
  intro k1 k2 m1 m2 o h1
  exact Option.noConfusion h1

theorem mem_set_erase_of_not_equiv {x n : match_node} {l : List match_node} (hn : n ∈ l)
    (hx : x.equiv n = false) : n ∈ set_erase x l := by
  induction l with
  | nil => simp at hn
  | cons z zs ih =>
    unfold set_erase
    rcases List.mem_cons.1 hn with e | hn
    · subst e
      simp only [hx, Bool.false_eq_true, if_false]
      exact List.mem_cons_self _ _
    · split
      · exact hn
      · exact List.mem_cons_of_mem _ (ih hn)

/-- A node out of reach of the lookup index stays so after any call. -/
theorem orphan_step {n : match_node} {s s1 : scoreboard} (h : Orphan n s) {o : op}
    (hs : step s o = some s1) : Orphan n s1 := by
  obtain ⟨hb, hc, hm⟩ := h
  cases o with
  | start a b =>
    simp only [step, Option.some.injEq] at hs; subst hs
    refine ⟨mem_set_insert_of_mem hb, ?_, ?_⟩
    · simp only [scoreboard.start]; omega
    · intro k m o hk
      simp only [scoreboard.start, map_assign] at hk
      split at hk
      · split at hk <;>
          (simp only [Option.some.injEq, Prod.mk.injEq] at hk; omega)
      · exact hm k m o hk
  | update m =>
    simp only [step] at hs
    cases hf : s.match_to_order m.ident with
    | none => rw [update_none hf] at hs; exact Option.noConfusion hs
    | some e =>
      obtain ⟨old, o⟩ := e
      rw [update_some hf, Option.some.injEq] at hs
      subst hs
      have ho := hm _ _ _ hf
      refine ⟨?_, hc, ?_⟩
      · apply mem_set_insert_of_mem
        apply mem_set_erase_of_not_equiv hb
        exact not_equiv_of_order_ne ho
      · intro k m1 o1 hk
        simp only [map_assign, map_erase] at hk
        split at hk
        · simp only [if_true, Option.some.injEq, Prod.mk.injEq] at hk
          rw [← hk.2]; exact ho
        · exact hm k m1 o1 hk
  | finish a b =>
    simp only [step, Option.some.injEq] at hs; subst hs
    cases hf : s.match_to_order (a, b) with
    | none => rw [finish_none hf]; exact ⟨hb, hc, hm⟩
    | some e =>
      obtain ⟨old, o⟩ := e
      rw [finish_some hf]
      have ho := hm _ _ _ hf
      refine ⟨mem_set_erase_of_not_equiv hb (not_equiv_of_order_ne ho), hc, ?_⟩
      intro k m1 o1 hk
      simp only [map_erase] at hk
      split at hk
      · exact Option.noConfusion hk
      · exact hm k m1 o1 hk

theorem orphan_run {n : match_node} {ops : List op} {s s1 : scoreboard} (h : Orphan n s)
    (hr : run s ops = some s1) : Orphan n s1 := by
  induction ops generalizing s with
  | nil => simp only [run, Option.some.injEq] at hr; subst hr; exact h
  | cons o rest ih =>
    obtain ⟨s2, hs2, hr2⟩ := run_cons hr
    exact ih (orphan_step h hs2) hr2

/-- Two sorted containers with the same elements are the same list. -/
theorem sorted_ext {l1 l2 : List match_node} (h1 : Sorted l1) (h2 : Sorted l2)
    (h : ∀ n, n ∈ l1 ↔ n ∈ l2) : l1 = l2 := by
  induction l1 generalizing l2 with
  | nil =>
    cases l2 with
    | nil => rfl
    | cons b t2 => exact absurd ((h b).2 (List.mem_cons_self b t2)) (List.not_mem_nil b)
  | cons a t1 ih =>
    cases l2 with
    | nil => exact absurd ((h a).1 (List.mem_cons_self a t1)) (List.not_mem_nil a)
    | cons b t2 =>
      have hab : a = b := by
        by_contra hne
        have ha : a ∈ t2 := by
          rcases List.mem_cons.1 ((h a).1 (List.mem_cons_self a t1)) with e | e
          · exact absurd e hne
          · exact e
        have hb : b ∈ t1 := by
          rcases List.mem_cons.1 ((h b).2 (List.mem_cons_self b t2)) with e | e
          · exact absurd e.symm hne
          · exact e
        have hba := (List.pairwise_cons.1 h2).1 a ha
        have hab := (List.pairwise_cons.1 h1).1 b hb
        rw [lt_asymm hab] at hba
        exact Bool.noConfusion hba
      subst hab
      have e : t1 = t2 := by
        apply ih (List.pairwise_cons.1 h1).2 (List.pairwise_cons.1 h2).2
        intro n
        constructor
        · intro hn
          rcases List.mem_cons.1 ((h n).1 (List.mem_cons_of_mem a hn)) with e | e
          · exact absurd e (sorted_ne h1 hn)
          · exact e
        · intro hn
          rcases List.mem_cons.1 ((h n).2 (List.mem_cons_of_mem a hn)) with e | e
          · exact absurd e (sorted_ne h2 hn)
          · exact e
      rw [e]

theorem map_update_self (t : order_map) (m : Match) (o : Nat) :
    map_assign (map_erase t m) m o m.ident = some (m, o) := by
  simp [map_assign, map_erase]

theorem map_update_other (t : order_map) (m : Match) (o : Nat) {k : String × String}
    (hk : k ≠ m.ident) : map_assign (map_erase t m) m o k = t k := by
  simp [map_assign, map_erase, hk]

theorem node_ne_of_ident_ne {a b : Match} (h : a.ident ≠ b.ident) (o1 o2 : Nat) :
    (match_node.mk a o1) ≠ ⟨b, o2⟩ := by
  intro e
  simp only [match_node.mk.injEq] at e
  exact h (by rw [e.1])

/-- The rank index after two updates of different active pairs, as a set. -/
theorem mem_two_updates {s : scoreboard} (h : InvF s) {mX mY oldX oldY : Match}
    {oX oY : Nat} (hne : mX.ident ≠ mY.ident)
    (hfX : s.match_to_order mX.ident = some (oldX, oX))
    (hfY : s.match_to_order mY.ident = some (oldY, oY)) (n : match_node) :
    n ∈ set_insert ⟨mY, oY⟩ (set_erase ⟨oldY, oY⟩
        (set_insert ⟨mX, oX⟩ (set_erase ⟨oldX, oX⟩ s.board))) ↔
      n = ⟨mY, oY⟩ ∨ n = ⟨mX, oX⟩ ∨
        (n ∈ s.board ∧ n ≠ ⟨oldX, oX⟩ ∧ n ≠ ⟨oldY, oY⟩) := by
  have hX := invF_update h (update_some hfX)
  have hfY1 : (map_assign (map_erase s.match_to_order mX) mX oX) mY.ident =
      some (oldY, oY) := by
    rw [map_update_other _ _ _ (Ne.symm hne)]; exact hfY
  have m1 := (update_board hX hfY1).2 n
  have m0 := (update_board h hfX).2 n
  simp only at m1
  rw [m1, m0]
  have hoY := (h.map_board _ _ _ hfY).1
  have d1 : (match_node.mk mX oX) ≠ ⟨oldY, oY⟩ :=
    node_ne_of_ident_ne (by rw [hoY]; exact hne) oX oY
  constructor
  · rintro (e | ⟨e | ⟨e1, e2⟩, e3⟩)
    · exact Or.inl e
    · exact Or.inr (Or.inl e)
    · exact Or.inr (Or.inr ⟨e1, e2, e3⟩)
  · rintro (e | e | ⟨e1, e2, e3⟩)
    · exact Or.inl e
    · exact Or.inr ⟨Or.inl e, by rw [e]; exact d1⟩
    · exact Or.inr ⟨Or.inr ⟨e1, e2⟩, e3⟩

theorem scoreboard_ext {a b : scoreboard} (h1 : a.counter = b.counter)
    (h2 : a.board = b.board) (h3 : a.match_to_order = b.match_to_order) : a = b := by
  cases a; cases b
  simp only at h1 h2 h3
  rw [h1, h2, h3]

theorem active_some {s : scoreboard} {home away : String}
    (h : s.active home away = true) : ∃ m o, s.match_to_order (home, away) = some (m, o) := by
  cases hf : s.match_to_order (home, away) with
  | none => simp [scoreboard.active, hf] at h
  | some e => exact ⟨e.1, e.2, rfl⟩

/-! ## The claims -/

/-- C1 fails when a total does not fit an `int`: T1-T2 is set to 2147483647-1,
whose sum `operator<` computes as an `int`, and T3-T4 is started. `summary()`
then lists T3-T4, total 0, before T1-T2, total 2147483648. -/
theorem rank_order_int_overflow :
    (run scoreboard.empty [.start "T1" "T2", .update ⟨"T1", "T2", 2147483647, 1⟩,
      .start "T3" "T4"]).map scoreboard.summary =
      some [⟨"T3", "T4", 0, 0⟩, ⟨"T1", "T2", 2147483647, 1⟩] ∧
    (Match.mk "T3" "T4" 0 0).total < (Match.mk "T1" "T2" 2147483647 1).total := by
  decide

/-- C1, amended: in every state reached from the empty scoreboard in which the
total of every contest of the rank index fits an `int`, the rank index is in
strictly increasing `operator<` order: of two consecutive nodes the earlier has
the greater or equal total, and on equal totals the strictly smaller sequence
number; the totals of consecutive entries of `summary()` never increase. -/
theorem rank_index_strictly_ordered (s : scoreboard) (h : Reachable s)
    (hr : ∀ n ∈ s.board, n.m.in_range) :
    Sorted s.board ∧
    (∀ l1 a b l2, s.board = l1 ++ a :: b :: l2 →
      b.m.total ≤ a.m.total ∧ (a.m.total = b.m.total → a.order < b.order)) ∧
    (∀ l1 x y l2, s.summary = l1 ++ x :: y :: l2 → y.total ≤ x.total) := by
  have hs := (inv_of_reachable h).sorted
  have hc : ∀ l1 a b l2, s.board = l1 ++ a :: b :: l2 →
      b.m.total < a.m.total ∨ (a.m.total = b.m.total ∧ a.order < b.order) := by
    intro l1 a b l2 e
    have hp := hs
    unfold Sorted at hp
    rw [e, List.pairwise_append, List.pairwise_cons] at hp
    have hlt := (lt_iff a b).1 (hp.2.1.1 b (List.mem_cons_self b l2))
    have ha : a ∈ s.board := by rw [e]; simp
    have hb : b ∈ s.board := by rw [e]; simp
    rw [int_total_of_range (hr a ha), int_total_of_range (hr b hb)] at hlt
    exact hlt
  refine ⟨hs, ?_, ?_⟩
  · intro l1 a b l2 e
    have := hc l1 a b l2 e
    omega
  · intro l1 x y l2 e
    unfold scoreboard.summary at e
    obtain ⟨k1, k2, e1, _, e3⟩ := List.map_eq_append_iff.1 e
    obtain ⟨a, k3, e4, e5, e6⟩ := List.map_eq_cons_iff.1 e3
    obtain ⟨b, k4, e7, e8, _⟩ := List.map_eq_cons_iff.1 e6
    have := hc k1 a b k4 (by rw [e1, e4, e7])
    rw [← e5, ← e8]
    omega

/-- C1, amended, at the example scoreboard, whose totals are 1 and 0. -/
theorem rank_index_strictly_ordered_witness :
    Reachable example_board ∧ (∀ n ∈ example_board.board, n.m.in_range) ∧
    ∀ l1 a b l2, example_board.board = l1 ++ a :: b :: l2 →
      b.m.total ≤ a.m.total ∧ (a.m.total = b.m.total → a.order < b.order) :=
  ⟨⟨example_ops, rfl⟩, by decide,
    (rank_index_strictly_ordered example_board ⟨example_ops, rfl⟩ (by decide)).2.1⟩

/-- C2: take a sequence of calls without a start of an active pair in which the
last start of the pair X comes before the last start of the pair Y, both pairs
being active at the end. Then both have an entry in `summary()`, and if the
totals of the two entries are equal the entry of X comes before the entry of Y,
whatever updates the sequence holds. -/
theorem ties_rank_by_start_order (pre mid post : List op) (hx ax hy ay : String)
    (s : scoreboard)
    (hfresh : fresh_starts scoreboard.empty
      (pre ++ .start hx ax :: (mid ++ .start hy ay :: post)) = true)
    (hrun : run scoreboard.empty
      (pre ++ .start hx ax :: (mid ++ .start hy ay :: post)) = some s)
    (hlastx : op.start hx ax ∉ mid ++ .start hy ay :: post)
    (hlasty : op.start hy ay ∉ post)
    (hactx : s.active hx ax = true) (hacty : s.active hy ay = true) :
    (∃ x ∈ s.summary, x.ident = (hx, ax)) ∧ (∃ y ∈ s.summary, y.ident = (hy, ay)) ∧
    ∀ x ∈ s.summary, ∀ y ∈ s.summary, x.ident = (hx, ax) → y.ident = (hy, ay) →
      x.total = y.total → ∃ l1 l2 l3, s.summary = l1 ++ x :: (l2 ++ y :: l3) := by
  have hI := invF_run invF_empty hfresh hrun
  obtain ⟨s0, _, hr1⟩ := run_append hrun
  obtain ⟨sx, hsx, hr2⟩ := run_cons hr1
  obtain ⟨s2, hr3, hr4⟩ := run_append hr2
  obtain ⟨sy, hsy, hr5⟩ := run_cons hr4
  simp only [step, Option.some.injEq] at hsx hsy
  subst hsx hsy
  -- the sequence number of X is the counter at its start and is kept to the end
  have hnfx : op.finish hx ax ∉ mid ++ .start hy ay :: post := by
    intro hin
    have := run_ends_absent hr2 hlastx (Or.inl hin)
    simp [scoreboard.active, this] at hactx
  obtain ⟨m0, hm0⟩ := start_assigns_counter s0 hx ax
  obtain ⟨mx, hmx⟩ := run_keeps_order hr2 hlastx hnfx hm0
  -- the same for Y, whose sequence number is larger
  have hnfy : op.finish hy ay ∉ post := by
    intro hin
    have := run_ends_absent hr5 hlasty (Or.inl hin)
    simp [scoreboard.active, this] at hacty
  obtain ⟨m1, hm1⟩ := start_assigns_counter s2 hy ay
  obtain ⟨my, hmy⟩ := run_keeps_order hr5 hlasty hnfy hm1
  have hlt : s0.counter < s2.counter := by
    have := run_counter_le hr3
    simp only [scoreboard.start] at this
    omega
  have hbx := hI.map_board _ _ _ hmx
  have hby := hI.map_board _ _ _ hmy
  have key : ∀ z ∈ s.summary, ∀ k m n, s.match_to_order k = some (m, n) → z.ident = k →
      z = m := by
    intro z hz k m n hk hzk
    obtain ⟨nz, hnz, e⟩ := List.mem_map.1 hz
    have := hI.board_map nz hnz
    rw [e, hzk, hk] at this
    simp only [Option.some.injEq, Prod.mk.injEq] at this
    exact this.1.symm
  refine ⟨⟨mx, List.mem_map.2 ⟨_, hbx.2, rfl⟩, hbx.1⟩,
    ⟨my, List.mem_map.2 ⟨_, hby.2, rfl⟩, hby.1⟩, ?_⟩
  intro x hxs y hys hxi hyi ht
  rw [key x hxs _ _ _ hmx hxi, key y hys _ _ _ hmy hyi] at ht ⊢
  have hnode : (match_node.mk mx s0.counter).lt ⟨my, s2.counter⟩ = true := by
    rw [lt_iff]; exact Or.inr ⟨int_total_congr ht, hlt⟩
  obtain ⟨l1, l2, l3, e⟩ := sorted_before hI.inv.sorted hbx.2 hby.2 hnode
  refine ⟨l1.map (fun n => n.m), l2.map (fun n => n.m), l3.map (fun n => n.m), ?_⟩
  simp only [scoreboard.summary, e, List.map_append, List.map_cons]

/-- C2 on a sequence in which the contest started second reaches 1-0 first. -/
theorem ties_rank_by_start_order_witness :
    ∃ l1 l2 l3, tie_board.summary =
      l1 ++ ⟨"T1", "T2", 1, 0⟩ :: (l2 ++ ⟨"T3", "T4", 1, 0⟩ :: l3) :=
  (ties_rank_by_start_order [] [] tie_updates "T1" "T2" "T3" "T4" tie_board rfl rfl
    (by decide) (by decide) rfl rfl).2.2 ⟨"T1", "T2", 1, 0⟩ (by decide) ⟨"T3", "T4", 1, 0⟩
    (by decide) rfl rfl rfl

/-- C3 fails when an active pair is started again: after `duplicate_ops`, which
holds two starts and no finish, `summary()` has three entries. -/
theorem summary_length_duplicate_start :
    (run scoreboard.empty duplicate_ops).map (fun s => s.summary.length) = some 3 ∧
    count_starts duplicate_ops = 2 ∧ count_finishes scoreboard.empty duplicate_ops = 0 := by
  decide

/-- C3, amended: for a sequence of calls on the empty scoreboard that never starts
an active pair (every update targeting an active contest), the length of
`summary()` is the number of start calls minus the number of finish calls that
targeted a pair present in the lookup index at the moment of the call. -/
theorem summary_length (ops : List op) (s : scoreboard)
    (hfresh : fresh_starts scoreboard.empty ops = true)
    (hrun : run scoreboard.empty ops = some s) :
    count_finishes scoreboard.empty ops ≤ count_starts ops ∧
    s.summary.length = count_starts ops - count_finishes scoreboard.empty ops := by
  have := length_run invF_empty hfresh hrun
  have e : scoreboard.empty.board.length = 0 := rfl
  rw [e] at this
  simp only [scoreboard.summary, List.length_map]
  constructor <;> omega

/-- C3, amended, on `example_ops`: two starts, no finish, two entries. -/
theorem summary_length_witness :
    fresh_starts scoreboard.empty example_ops = true ∧
    example_board.summary.length =
      count_starts example_ops - count_finishes scoreboard.empty example_ops :=
  ⟨rfl, (summary_length example_ops example_board rfl rfl).2⟩

/-- C4 fails when an active pair is started again: after two starts of T1-T2
`summary()` holds two entries with these names. -/
theorem duplicate_start_two_entries :
    (run scoreboard.empty [.start "T1" "T2", .start "T1" "T2"]).map scoreboard.summary =
      some [⟨"T1", "T2", 0, 0⟩, ⟨"T1", "T2", 0, 0⟩] := by
  decide

/-- C4, amended: in every state reached from the empty scoreboard without starting
an active pair, no two entries of `summary()` have the same home name and the
same away name. -/
theorem one_entry_per_pair (s : scoreboard) (h : ReachableFresh s) :
    (s.summary.map Match.ident).Nodup := by
  have hI := invF_of_reachableFresh h
  simp only [scoreboard.summary, List.map_map]
  apply List.Nodup.map_on _ (sorted_nodup hI.inv.sorted)
  intro n1 h1 n2 h2 e
  exact ident_inj hI n1 h1 n2 h2 e

/-- C4, amended, at the example scoreboard. -/
theorem one_entry_per_pair_witness :
    ReachableFresh example_board ∧ (example_board.summary.map Match.ident).Nodup :=
  ⟨example_reachable, one_entry_per_pair example_board example_reachable⟩

/-- C5: in every state reached without starting an active pair, the lookup index
holds the entry (m, o) for a pair exactly when the rank index holds the node
(m, o) and m carries the names of the pair; the rank index holds no node twice
and no two nodes of the same pair. -/
theorem indexes_agree (s : scoreboard) (h : ReachableFresh s) :
    (∀ home away m o, s.match_to_order (home, away) = some (m, o) ↔
      (⟨m, o⟩ ∈ s.board ∧ m.home = home ∧ m.away = away)) ∧
    s.board.Nodup ∧ (s.board.map (fun n => n.m.ident)).Nodup := by
  have hI := invF_of_reachableFresh h
  refine ⟨?_, sorted_nodup hI.inv.sorted, ?_⟩
  · intro home away m o
    constructor
    · intro hm
      have hb := hI.map_board _ _ _ hm
      have e := hb.1
      simp only [Match.ident, Prod.mk.injEq] at e
      exact ⟨hb.2, e.1, e.2⟩
    · rintro ⟨hb, e1, e2⟩
      have := hI.board_map _ hb
      simp only [Match.ident, e1, e2] at this
      exact this
  · apply List.Nodup.map_on _ (sorted_nodup hI.inv.sorted)
    intro n1 h1 n2 h2 e
    exact ident_inj hI n1 h1 n2 h2 e

/-- C5 at the example scoreboard: the entry of T3-T4 is in both indexes. -/
theorem indexes_agree_witness :
    example_board.match_to_order ("T3", "T4") = some (⟨"T3", "T4", 1, 0⟩, 1) ∧
    (⟨⟨"T3", "T4", 1, 0⟩, 1⟩ : match_node) ∈ example_board.board :=
  ⟨rfl, (((indexes_agree example_board example_reachable).1 "T3" "T4" ⟨"T3", "T4", 1, 0⟩ 1).1
    rfl).1⟩

/-- C6: on the empty scoreboard `update` of the never started pair T1-T2 finds no
entry, and the source dereferences the end iterator: there is no defined result,
a NotFound error is not reported. -/
theorem update_not_started_undefined :
    scoreboard.empty.update ⟨"T1", "T2", 1, 0⟩ = none := by
  rfl

/-- C7: `finish` of a pair that is absent from the lookup index changes nothing
(counter, rank index, lookup index and so `summary()`), and a second `finish` of
the same pair leaves the state of the first. -/
theorem finish_absent_noop (s : scoreboard) (home away : String)
    (h : s.match_to_order (home, away) = none) :
    s.finish home away = s ∧ (s.finish home away).summary = s.summary ∧
    ∀ t : scoreboard, (t.finish home away).finish home away = t.finish home away := by
  refine ⟨finish_none h, by rw [finish_none h], ?_⟩
  intro t
  exact finish_none (finish_makes_absent t home away)

/-- C7 at the example scoreboard and the pair T5-T6, which was never started. -/
theorem finish_absent_noop_witness :
    example_board.match_to_order ("T5", "T6") = none ∧
    example_board.finish "T5" "T6" = example_board :=
  ⟨rfl, (finish_absent_noop example_board "T5" "T6" rfl).1⟩

/-- C8: in a state reached without starting an active pair, `update` of an
active pair to the scores x, y succeeds; the old summary has one entry of the
pair, the new summary has the entry with the scores x, y at some place, and
without these two entries the two summaries are the same list, which holds no
entry of the pair. -/
theorem update_replaces_entry (s : scoreboard) (h : ReachableFresh s) (home away : String)
    (x y : Int) (hact : s.active home away = true) :
    ∃ s1, s.update ⟨home, away, x, y⟩ = some s1 ∧
    ∃ l1 old l2 r1 r2, s.summary = l1 ++ old :: l2 ∧ old.home = home ∧ old.away = away ∧
      s1.summary = r1 ++ ⟨home, away, x, y⟩ :: r2 ∧ r1 ++ r2 = l1 ++ l2 ∧
      ∀ z ∈ l1 ++ l2, ¬(z.home = home ∧ z.away = away) := by
  have hI := invF_of_reachableFresh h
  cases hf : s.match_to_order (home, away) with
  | none => simp [scoreboard.active, hf] at hact
  | some e =>
    obtain ⟨old, o⟩ := e
    have hf1 : s.match_to_order (Match.mk home away x y).ident = some (old, o) := hf
    obtain ⟨b1, b2, e1, e2, e3, e4⟩ := board_split_at hI hf
    obtain ⟨r1, r2, e5, e6⟩ := set_insert_split (update_board hI hf1).1
    simp only [Match.ident, Prod.mk.injEq] at e3
    refine ⟨_, update_some hf1, b1.map (fun n => n.m), old, b2.map (fun n => n.m),
      r1.map (fun n => n.m), r2.map (fun n => n.m), ?_, e3.1, e3.2, ?_, ?_, ?_⟩
    · simp only [scoreboard.summary, e1, List.map_append, List.map_cons]
    · simp only [scoreboard.summary, e6, List.map_append, List.map_cons]
    · rw [← List.map_append, ← List.map_append, ← e5, e2]
    · intro z hz hn
      rw [← List.map_append] at hz
      obtain ⟨n, hn1, hn2⟩ := List.mem_map.1 hz
      apply e4 n hn1
      rw [hn2]
      simp only [Match.ident, hn.1, hn.2]

/-- C8 at the example scoreboard: T1-T2 is updated to 2-1 and moves to the front. -/
theorem update_replaces_entry_witness :
    example_board.active "T1" "T2" = true ∧
    ∃ s1, example_board.update ⟨"T1", "T2", 2, 1⟩ = some s1 ∧
    ∃ l1 old l2 r1 r2, example_board.summary = l1 ++ old :: l2 ∧
      old.home = "T1" ∧ old.away = "T2" ∧
      s1.summary = r1 ++ ⟨"T1", "T2", 2, 1⟩ :: r2 ∧ r1 ++ r2 = l1 ++ l2 ∧
      ∀ z ∈ l1 ++ l2, ¬(z.home = "T1" ∧ z.away = "T2") :=
  ⟨rfl, update_replaces_entry example_board example_reachable "T1" "T2" 2 1 rfl⟩

/-- C9: in a state reached without starting an active pair, `finish` of an active
pair takes the one entry of the pair out of `summary()` and leaves the other
entries, their scores and their order as they are, wherever the entry was. -/
theorem finish_removes_entry (s : scoreboard) (h : ReachableFresh s) (home away : String)
    (hact : s.active home away = true) :
    ∃ l1 old l2, s.summary = l1 ++ old :: l2 ∧ old.home = home ∧ old.away = away ∧
      (s.finish home away).summary = l1 ++ l2 ∧
      ∀ z ∈ l1 ++ l2, ¬(z.home = home ∧ z.away = away) := by
  have hI := invF_of_reachableFresh h
  cases hf : s.match_to_order (home, away) with
  | none => simp [scoreboard.active, hf] at hact
  | some e =>
    obtain ⟨old, o⟩ := e
    obtain ⟨b1, b2, e1, e2, e3, e4⟩ := board_split_at hI hf
    simp only [Match.ident, Prod.mk.injEq] at e3
    refine ⟨b1.map (fun n => n.m), old, b2.map (fun n => n.m), ?_, e3.1, e3.2, ?_, ?_⟩
    · simp only [scoreboard.summary, e1, List.map_append, List.map_cons]
    · rw [finish_some hf]
      simp only [scoreboard.summary, e2, List.map_append]
    · intro z hz hn
      rw [← List.map_append] at hz
      obtain ⟨n, hn1, hn2⟩ := List.mem_map.1 hz
      apply e4 n hn1
      rw [hn2]
      simp only [Match.ident, hn.1, hn.2]

/-- C9 at the example scoreboard: finishing the leading contest T3-T4. -/
theorem finish_removes_entry_witness :
    example_board.active "T3" "T4" = true ∧
    ∃ l1 old l2, example_board.summary = l1 ++ old :: l2 ∧
      old.home = "T3" ∧ old.away = "T4" ∧
      (example_board.finish "T3" "T4").summary = l1 ++ l2 ∧
      ∀ z ∈ l1 ++ l2, ¬(z.home = "T3" ∧ z.away = "T4") :=
  ⟨rfl, finish_removes_entry example_board example_reachable "T3" "T4" rfl⟩

/-- C10 fails when a total does not fit an `int`: T1-T2 stands at 2147483647-1,
a non-negative total, and the newly started T3-T4 is put first, not last. -/
theorem start_not_last_int_overflow :
    Reachable overflow_board ∧ (∀ n ∈ overflow_board.board, 0 ≤ n.m.total) ∧
    overflow_board.summary = [⟨"T1", "T2", 2147483647, 1⟩] ∧
    (overflow_board.start "T3" "T4").summary =
      [⟨"T3", "T4", 0, 0⟩, ⟨"T1", "T2", 2147483647, 1⟩] :=
  ⟨⟨overflow_ops, rfl⟩, by decide, by decide, by decide⟩

/-- C10, amended: in a reachable state in which the total of every node of the
rank index is non-negative and fits an `int`, `start` appends the entry of the
new contest, with the scores 0-0, at the end of `summary()`; on the empty
scoreboard the summary is then that one entry. -/
theorem start_appends_last (s : scoreboard) (h : Reachable s)
    (hnn : ∀ n ∈ s.board, 0 ≤ n.m.total ∧ n.m.total ≤ 2147483647) (home away : String) :
    (s.start home away).summary = s.summary ++ [⟨home, away, 0, 0⟩] ∧
    (scoreboard.empty.start home away).summary = [⟨home, away, 0, 0⟩] := by
  have hI := inv_of_reachable h
  refine ⟨?_, rfl⟩
  have hl : ∀ n ∈ s.board, n.lt ⟨Match.start home away, s.counter⟩ = true := by
    intro n hn
    rw [lt_iff]
    have h1 := hnn n hn
    have h2 := hI.board_lt n hn
    have h3 : (Match.start home away).int_total = 0 := rfl
    have h4 : n.m.int_total = n.m.total :=
      int_total_of_range ⟨by have := h1.1; omega, h1.2⟩
    simp only [h3, h4]
    omega
  have e : (s.start home away).board = s.board ++ [⟨Match.start home away, s.counter⟩] :=
    set_insert_last hl
  simp only [scoreboard.summary, e, List.map_append, List.map_cons, List.map_nil, Match.start]

/-- C10, amended, at the example scoreboard: T5-T6 is started and ranks last. -/
theorem start_appends_last_witness :
    Reachable example_board ∧
    (∀ n ∈ example_board.board, 0 ≤ n.m.total ∧ n.m.total ≤ 2147483647) ∧
    (example_board.start "T5" "T6").summary =
      example_board.summary ++ [⟨"T5", "T6", 0, 0⟩] :=
  ⟨⟨example_ops, rfl⟩, by decide,
    (start_appends_last example_board ⟨example_ops, rfl⟩ (by decide) "T5" "T6").1⟩

/-- C11: `update` of a contest whose pair is in the lookup index keeps the
sequence number of the pair, leaves the lookup entries of all other pairs as
they are and does not touch the counter. -/
theorem update_keeps_sequence_number (s : scoreboard) (m old : Match) (o : Nat)
    (h : s.match_to_order m.ident = some (old, o)) :
    ∃ s1, s.update m = some s1 ∧ s1.match_to_order m.ident = some (m, o) ∧
      (∀ k, k ≠ m.ident → s1.match_to_order k = s.match_to_order k) ∧
      s1.counter = s.counter := by
  refine ⟨_, update_some h, ?_, ?_, rfl⟩
  · simp [map_assign, map_erase]
  · intro k hk
    simp [map_assign, map_erase, hk]

/-- C11 at the example scoreboard: T3-T4, started second, keeps the number 1. -/
theorem update_keeps_sequence_number_witness :
    example_board.match_to_order ("T3", "T4") = some (⟨"T3", "T4", 1, 0⟩, 1) ∧
    ∃ s1, example_board.update ⟨"T3", "T4", 2, 2⟩ = some s1 ∧
      s1.match_to_order ("T3", "T4") = some (⟨"T3", "T4", 2, 2⟩, 1) ∧
      (∀ k, k ≠ ("T3", "T4") → s1.match_to_order k = example_board.match_to_order k) ∧
      s1.counter = example_board.counter :=
  ⟨rfl, update_keeps_sequence_number example_board ⟨"T3", "T4", 2, 2⟩ ⟨"T3", "T4", 1, 0⟩ 1 rfl⟩

/-- C12: the counter starts at 0, `start` adds exactly one to it, `update` and
`finish` leave it alone (`summary` is a function of the state and cannot change
it). So after a sequence of calls on the empty scoreboard the counter is the
number of `start` calls, every sequence number in the rank index and in the
lookup index is below the counter, and a `start` that follows k - 1 earlier
starts puts the number k - 1 into both indexes. -/
theorem sequence_numbers_never_reused :
    scoreboard.empty.counter = 0 ∧
    (∀ (s : scoreboard) home away, (s.start home away).counter = s.counter + 1) ∧
    (∀ (s s1 : scoreboard) m, s.update m = some s1 → s1.counter = s.counter) ∧
    (∀ (s : scoreboard) home away, (s.finish home away).counter = s.counter) ∧
    (∀ ops s, run scoreboard.empty ops = some s →
      s.counter = count_starts ops ∧ (∀ n ∈ s.board, n.order < s.counter) ∧
      ∀ k m o, s.match_to_order k = some (m, o) → o < s.counter) ∧
    (∀ ops s home away, run scoreboard.empty ops = some s →
      ⟨Match.start home away, count_starts ops⟩ ∈ (s.start home away).board ∧
      ∃ m, (s.start home away).match_to_order (home, away) = some (m, count_starts ops)) := by
  have hc : ∀ ops s, run scoreboard.empty ops = some s → s.counter = count_starts ops := by
    intro ops s hr
    have := run_counter hr
    have e : scoreboard.empty.counter = 0 := rfl
    omega
  refine ⟨rfl, fun _ _ _ => rfl, ?_, ?_, ?_, ?_⟩
  · intro s s1 m hu
    have := step_counter (show step s (.update m) = some s1 from hu)
    simpa [count_starts] using this
  · intro s home away
    have := step_counter (show step s (.finish home away) = some _ from rfl)
    simpa [count_starts] using this
  · intro ops s hr
    have hI := inv_run inv_empty hr
    exact ⟨hc ops s hr, hI.board_lt, hI.map_lt⟩
  · intro ops s home away hr
    have hI := inv_run inv_empty hr
    rw [← hc ops s hr]
    exact ⟨mem_set_insert_self (start_no_equiv hI (Match.start home away)),
      start_assigns_counter s home away⟩

/-- C12 on `example_ops`, which holds two starts: the counter is 2 and the next
start assigns the number 2. -/
theorem sequence_numbers_never_reused_witness :
    example_board.counter = 2 ∧
    (⟨Match.start "T5" "T6", 2⟩ : match_node) ∈ (example_board.start "T5" "T6").board :=
  ⟨(sequence_numbers_never_reused.2.2.2.2.1 example_ops example_board rfl).1,
    (sequence_numbers_never_reused.2.2.2.2.2 example_ops example_board "T5" "T6" rfl).1⟩

/-- C13: in a reachable state, `start` of a pair that is absent from the lookup
index followed by `finish` of the same pair gives the state back, rank index
and lookup index included, with the counter larger by one; `summary()` is the
same, and empty if the scoreboard was empty. -/
theorem start_finish_restores (s : scoreboard) (h : Reachable s) (home away : String)
    (hab : s.match_to_order (home, away) = none) :
    (s.start home away).finish home away = ⟨s.counter + 1, s.board, s.match_to_order⟩ ∧
    ((s.start home away).finish home away).summary = s.summary ∧
    ((scoreboard.empty.start home away).finish home away).summary = [] := by
  have hI := inv_of_reachable h
  have key : ∀ t : scoreboard, Inv t → t.match_to_order (home, away) = none →
      (t.start home away).finish home away = ⟨t.counter + 1, t.board, t.match_to_order⟩ := by
    intro t ht hn
    have hf : (t.start home away).match_to_order (home, away) =
        some (Match.start home away, t.counter) := by
      simp only [scoreboard.start, map_assign, Match.start, Match.ident, if_true, hn]
    rw [finish_some hf]
    have e1 := set_erase_insert (start_no_equiv ht (Match.start home away))
    have e2 : map_erase (map_assign t.match_to_order (Match.start home away) t.counter)
        (Match.start home away) = t.match_to_order := map_erase_assign _ hn
    simp only [scoreboard.start, e1, e2]
  refine ⟨key s hI hab, ?_, ?_⟩
  · rw [key s hI hab]; rfl
  · rw [key scoreboard.empty inv_empty rfl]; rfl

/-- C13 at the example scoreboard and the pair T5-T6. -/
theorem start_finish_restores_witness :
    example_board.match_to_order ("T5", "T6") = none ∧
    ((example_board.start "T5" "T6").finish "T5" "T6").summary = example_board.summary :=
  ⟨rfl, (start_finish_restores example_board ⟨example_ops, rfl⟩ "T5" "T6" rfl).2.1⟩

/-- C15: `operator<` of `match_node`, with exact totals, is irreflexive,
asymmetric and transitive; two nodes are incomparable in both directions exactly
when they have the same total and the same sequence number; of two nodes with
different sequence numbers exactly one is less than the other. For nodes whose
totals fit an `int` this order is the `operator<` the rank index runs. -/
theorem rank_order_strict :
    (∀ a : match_node, a.lt_exact a = false) ∧
    (∀ a b : match_node, a.lt_exact b = true → b.lt_exact a = false) ∧
    (∀ a b c : match_node, a.lt_exact b = true → b.lt_exact c = true →
      a.lt_exact c = true) ∧
    (∀ a b : match_node, (a.lt_exact b = false ∧ b.lt_exact a = false) ↔
      (a.m.total = b.m.total ∧ a.order = b.order)) ∧
    (∀ a b : match_node, a.order ≠ b.order →
      (a.lt_exact b = true ∨ b.lt_exact a = true) ∧
        ¬(a.lt_exact b = true ∧ b.lt_exact a = true)) ∧
    (∀ a b : match_node, a.m.in_range → b.m.in_range → a.lt b = a.lt_exact b) := by
  have hirr : ∀ a : match_node, a.lt_exact a = false := by
    intro a
    have h := lt_exact_iff a a
    cases ha : a.lt_exact a
    · rfl
    · rw [ha] at h; simp at h
  have hasy : ∀ a b : match_node, a.lt_exact b = true → b.lt_exact a = false := by
    intro a b h
    have h1 := (lt_exact_iff a b).1 h
    have h2 := lt_exact_iff b a
    cases hba : b.lt_exact a
    · rfl
    · rw [hba] at h2; simp at h2; omega
  have hinc : ∀ a b : match_node, (a.lt_exact b = false ∧ b.lt_exact a = false) ↔
      (a.m.total = b.m.total ∧ a.order = b.order) := by
    intro a b
    have h1 := lt_exact_iff a b
    have h2 := lt_exact_iff b a
    cases hab : a.lt_exact b <;> cases hba : b.lt_exact a <;>
      simp [hab, hba] at h1 h2 ⊢ <;> omega
  refine ⟨hirr, hasy, ?_, hinc, ?_, fun a b ha hb => lt_eq_lt_exact ha hb⟩
  · intro a b c h1 h2
    rw [lt_exact_iff] at *
    omega
  · intro a b hne
    constructor
    · cases hab : a.lt_exact b
      · cases hba : b.lt_exact a
        · exact absurd ((hinc a b).1 ⟨hab, hba⟩).2 hne
        · exact Or.inr rfl
      · exact Or.inl rfl
    · rintro ⟨h1, h2⟩
      rw [hasy a b h1] at h2
      exact Bool.noConfusion h2

/-- C15 on two nodes with the same total: the one started first is the smaller. -/
theorem rank_order_strict_witness :
    (match_node.mk ⟨"T1", "T2", 1, 0⟩ 0).lt_exact ⟨⟨"T3", "T4", 0, 1⟩, 1⟩ = true ∧
    (match_node.mk ⟨"T3", "T4", 0, 1⟩ 1).lt_exact ⟨⟨"T1", "T2", 1, 0⟩, 0⟩ = false :=
  ⟨rfl, rank_order_strict.2.1 ⟨⟨"T1", "T2", 1, 0⟩, 0⟩ ⟨⟨"T3", "T4", 0, 1⟩, 1⟩ rfl⟩

/-- C16: `operator==` of `match` holds exactly when the home names and the away
names agree, whatever the scores; it is reflexive, symmetric and transitive;
`match(A, B)` and `match(B, A)` are different when A and B differ; and matches
that are equal have the same hash, for any hash of strings. -/
theorem match_equality_is_identity :
    (∀ a b : Match, a.eq b = true ↔ (a.home = b.home ∧ a.away = b.away)) ∧
    (∀ (h a : String) (x y u v : Int), (Match.mk h a x y).eq ⟨h, a, u, v⟩ = true) ∧
    (∀ a : Match, a.eq a = true) ∧
    (∀ a b : Match, a.eq b = true → b.eq a = true) ∧
    (∀ a b c : Match, a.eq b = true → b.eq c = true → a.eq c = true) ∧
    (∀ (h a : String) (x y u v : Int), h ≠ a → (Match.mk h a x y).eq ⟨a, h, u, v⟩ = false) ∧
    (∀ (string_hash : String → Nat) (a b : Match), a.eq b = true →
      a.hash string_hash = b.hash string_hash) := by
  have hiff : ∀ a b : Match, a.eq b = true ↔ (a.home = b.home ∧ a.away = b.away) := by
    intro a b
    simp [Match.eq]
  refine ⟨hiff, ?_, ?_, ?_, ?_, ?_, ?_⟩
  · intro h a x y u v
    rw [hiff]; exact ⟨rfl, rfl⟩
  · intro a
    rw [hiff]; exact ⟨rfl, rfl⟩
  · intro a b hab
    rw [hiff] at hab ⊢
    exact ⟨hab.1.symm, hab.2.symm⟩
  · intro a b c hab hbc
    rw [hiff] at hab hbc ⊢
    exact ⟨hab.1.trans hbc.1, hab.2.trans hbc.2⟩
  · intro h a x y u v hne
    cases he : (Match.mk h a x y).eq ⟨a, h, u, v⟩
    · rfl
    · exact absurd ((hiff _ _).1 he).1 hne
  · intro string_hash a b hab
    rw [hiff] at hab
    simp only [Match.hash, hab.1, hab.2]

/-- C16 on the contest T1-T2 with two different scores. -/
theorem match_equality_is_identity_witness :
    (Match.mk "T1" "T2" 0 0).eq ⟨"T1", "T2", 3, 1⟩ = true ∧
    (Match.mk "T1" "T2" 3 1).eq ⟨"T1", "T2", 0, 0⟩ = true ∧
    (Match.mk "T1" "T2" 0 0).eq ⟨"T2", "T1", 0, 0⟩ = false :=
  ⟨rfl, match_equality_is_identity.2.2.2.1 ⟨"T1", "T2", 0, 0⟩ ⟨"T1", "T2", 3, 1⟩ rfl,
    match_equality_is_identity.2.2.2.2.2.1 "T1" "T2" 0 0 0 0 (by decide)⟩

/-- C14: in a reachable state let the pair have the lookup entry (m, o) and let
n be a node of the pair in the rank index with the sequence number o. A second
`start` of the pair keeps n, adds the node with the scores 0-0 and the counter
as its number, and rebinds the lookup entry, stored key unchanged, to that
number. After any further calls n is still in the rank index, so `summary()`
still holds an entry of the pair, also after `finish` of the pair. -/
theorem duplicate_start_orphans (s : scoreboard) (h : Reachable s) (home away : String)
    (m : Match) (o : Nat) (n : match_node)
    (hm : s.match_to_order (home, away) = some (m, o))
    (hn : n ∈ s.board) (hno : n.order = o) (hnh : n.m.home = home) (hna : n.m.away = away) :
    n ∈ (s.start home away).board ∧
    ⟨⟨home, away, 0, 0⟩, s.counter⟩ ∈ (s.start home away).board ∧
    (s.start home away).match_to_order (home, away) = some (m, s.counter) ∧
    ∀ ops s2, run (s.start home away) ops = some s2 →
      n ∈ s2.board ∧ ∃ z ∈ s2.summary, z.home = home ∧ z.away = away := by
  have hI := inv_of_reachable h
  have hJ := mapInj_of_reachable h
  have hlookup : (s.start home away).match_to_order (home, away) = some (m, s.counter) := by
    simp only [scoreboard.start, map_assign, Match.start, Match.ident, if_true, hm]
  have horph : Orphan n (s.start home away) := by
    refine ⟨mem_set_insert_of_mem hn, ?_, ?_⟩
    · have := hI.board_lt n hn
      simp only [scoreboard.start]; omega
    · intro k m1 o1 hk e
      by_cases hk1 : k = (home, away)
      · rw [hk1, hlookup] at hk
        simp only [Option.some.injEq, Prod.mk.injEq] at hk
        have := hI.board_lt n hn
        omega
      · have hk2 : s.match_to_order k = some (m1, o1) := by
          have hne : k ≠ (Match.start home away).ident := hk1
          simp only [scoreboard.start, map_assign, if_neg hne] at hk
          exact hk
        rw [e, hno] at hk2
        exact hk1 (hJ _ _ _ _ _ hk2 hm)
  refine ⟨horph.1, mem_set_insert_self (start_no_equiv hI (Match.start home away)), hlookup, ?_⟩
  intro ops s2 hr
  have := (orphan_run horph hr).1
  exact ⟨this, n.m, List.mem_map.2 ⟨n, this, rfl⟩, hnh, hna⟩

/-- C14 at the scoreboard where T1-T2 leads 1-0: after a second start and a
finish of T1-T2 the old node is still in the rank index. -/
theorem duplicate_start_orphans_witness :
    scored_board.match_to_order ("T1", "T2") = some (⟨"T1", "T2", 1, 0⟩, 0) ∧
    (⟨⟨"T1", "T2", 1, 0⟩, 0⟩ : match_node) ∈
      ((scored_board.start "T1" "T2").finish "T1" "T2").board :=
  ⟨rfl, ((duplicate_start_orphans scored_board
    ⟨[.start "T1" "T2", .update ⟨"T1", "T2", 1, 0⟩], rfl⟩ "T1" "T2" ⟨"T1", "T2", 1, 0⟩ 0
    ⟨⟨"T1", "T2", 1, 0⟩, 0⟩ rfl (by decide) rfl rfl rfl).2.2.2
    [.finish "T1" "T2"] ((scored_board.start "T1" "T2").finish "T1" "T2") rfl).1⟩

/-- C17: in a state reached without starting an active pair, the updates of
two contests with different active pairs can be applied in either order: both
orders succeed and give the same counter, rank index and lookup index, and so
the same `summary()`. -/
theorem updates_commute (s : scoreboard) (h : ReachableFresh s) (mX mY : Match)
    (hne : mX.ident ≠ mY.ident) (hX : s.active mX.home mX.away = true)
    (hY : s.active mY.home mY.away = true) :
    ∃ sX sY sXY sYX, s.update mX = some sX ∧ sX.update mY = some sXY ∧
      s.update mY = some sY ∧ sY.update mX = some sYX ∧
      sXY = sYX ∧ sXY.summary = sYX.summary := by
  have hI := invF_of_reachableFresh h
  obtain ⟨oldX, oX, hfX⟩ := active_some hX
  obtain ⟨oldY, oY, hfY⟩ := active_some hY
  have hfX : s.match_to_order mX.ident = some (oldX, oX) := hfX
  have hfY : s.match_to_order mY.ident = some (oldY, oY) := hfY
  have hIX := invF_update hI (update_some hfX)
  have hIY := invF_update hI (update_some hfY)
  have hfY1 : (map_assign (map_erase s.match_to_order mX) mX oX) mY.ident =
      some (oldY, oY) := by
    rw [map_update_other _ _ _ (Ne.symm hne)]; exact hfY
  have hfX1 : (map_assign (map_erase s.match_to_order mY) mY oY) mX.ident =
      some (oldX, oX) := by
    rw [map_update_other _ _ _ hne]; exact hfX
  have hIXY := invF_update hIX (update_some hfY1)
  have hIYX := invF_update hIY (update_some hfX1)
  have heq : (scoreboard.mk s.counter
        (set_insert ⟨mY, oY⟩ (set_erase ⟨oldY, oY⟩
          (set_insert ⟨mX, oX⟩ (set_erase ⟨oldX, oX⟩ s.board))))
        (map_assign (map_erase (map_assign (map_erase s.match_to_order mX) mX oX) mY) mY oY)) =
      scoreboard.mk s.counter
        (set_insert ⟨mX, oX⟩ (set_erase ⟨oldX, oX⟩
          (set_insert ⟨mY, oY⟩ (set_erase ⟨oldY, oY⟩ s.board))))
        (map_assign (map_erase (map_assign (map_erase s.match_to_order mY) mY oY) mX) mX oX) := by
    refine scoreboard_ext rfl ?_ ?_
    · apply sorted_ext hIXY.inv.sorted hIYX.inv.sorted
      intro n
      show n ∈ set_insert ⟨mY, oY⟩ (set_erase ⟨oldY, oY⟩
          (set_insert ⟨mX, oX⟩ (set_erase ⟨oldX, oX⟩ s.board))) ↔
        n ∈ set_insert ⟨mX, oX⟩ (set_erase ⟨oldX, oX⟩
          (set_insert ⟨mY, oY⟩ (set_erase ⟨oldY, oY⟩ s.board)))
      rw [mem_two_updates hI hne hfX hfY, mem_two_updates hI (Ne.symm hne) hfY hfX]
      constructor
      · rintro (e | e | ⟨e1, e2, e3⟩)
        · exact Or.inr (Or.inl e)
        · exact Or.inl e
        · exact Or.inr (Or.inr ⟨e1, e3, e2⟩)
      · rintro (e | e | ⟨e1, e2, e3⟩)
        · exact Or.inr (Or.inl e)
        · exact Or.inl e
        · exact Or.inr (Or.inr ⟨e1, e3, e2⟩)
    · funext k
      show map_assign (map_erase (map_assign (map_erase s.match_to_order mX) mX oX) mY) mY oY k =
        map_assign (map_erase (map_assign (map_erase s.match_to_order mY) mY oY) mX) mX oX k
      by_cases hkY : k = mY.ident
      · rw [hkY, map_update_self, map_update_other _ _ _ (Ne.symm hne), map_update_self]
      · rw [map_update_other _ _ _ hkY]
        by_cases hkX : k = mX.ident
        · rw [hkX, map_update_self, map_update_self]
        · rw [map_update_other _ _ _ hkX, map_update_other _ _ _ hkX,
            map_update_other _ _ _ hkY]
  exact ⟨_, _, _, _, update_some hfX, update_some hfY1, update_some hfY, update_some hfX1,
    heq, by rw [heq]⟩

/-- C17 at the example scoreboard: T1-T2 goes to 2-0 and T3-T4 to 0-3. -/
theorem updates_commute_witness :
    example_board.active "T1" "T2" = true ∧ example_board.active "T3" "T4" = true ∧
    ∃ sX sY sXY sYX, example_board.update ⟨"T1", "T2", 2, 0⟩ = some sX ∧
      sX.update ⟨"T3", "T4", 0, 3⟩ = some sXY ∧
      example_board.update ⟨"T3", "T4", 0, 3⟩ = some sY ∧
      sY.update ⟨"T1", "T2", 2, 0⟩ = some sYX ∧
      sXY = sYX ∧ sXY.summary = sYX.summary :=
  ⟨rfl, rfl, updates_commute example_board example_reachable ⟨"T1", "T2", 2, 0⟩
    ⟨"T3", "T4", 0, 3⟩ (by decide) rfl rfl⟩

/-- C18: in a state reached without starting an active pair, two updates of the
same active pair in a row give the state of the second update alone: counter,
rank index and lookup index are the same; so an update applied twice is the
update applied once. -/
theorem last_update_wins (s : scoreboard) (h : ReachableFresh s) (m1 m2 : Match)
    (hid : m1.ident = m2.ident) (hact : s.active m1.home m1.away = true) :
    (∃ s1 s12 s2, s.update m1 = some s1 ∧ s1.update m2 = some s12 ∧
      s.update m2 = some s2 ∧ s12 = s2) ∧
    ∃ s1 s11, s.update m1 = some s1 ∧ s1.update m1 = some s11 ∧ s11 = s1 := by
  have hI := invF_of_reachableFresh h
  obtain ⟨old, o, hf⟩ := active_some hact
  have hf1 : s.match_to_order m1.ident = some (old, o) := hf
  have key : ∀ m : Match, m.ident = m1.ident →
      (scoreboard.mk s.counter
        (set_insert ⟨m, o⟩ (set_erase ⟨m1, o⟩
          (set_insert ⟨m1, o⟩ (set_erase ⟨old, o⟩ s.board))))
        (map_assign (map_erase (map_assign (map_erase s.match_to_order m1) m1 o) m) m o)) =
      scoreboard.mk s.counter
        (set_insert ⟨m, o⟩ (set_erase ⟨old, o⟩ s.board))
        (map_assign (map_erase s.match_to_order m) m o) := by
    intro m hm
    have hf2 : s.match_to_order m.ident = some (old, o) := by rw [hm]; exact hf1
    have hI1 := invF_update hI (update_some hf1)
    have hf3 : (map_assign (map_erase s.match_to_order m1) m1 o) m.ident = some (m1, o) := by
      rw [hm, map_update_self]
    have hI12 := invF_update hI1 (update_some hf3)
    have hI2 := invF_update hI (update_some hf2)
    have hold := (hI.map_board _ _ _ hf1).2
    refine scoreboard_ext rfl ?_ ?_
    · apply sorted_ext hI12.inv.sorted hI2.inv.sorted
      intro n
      have a1 := (update_board hI1 hf3).2 n
      have a0 := (update_board hI hf1).2 n
      have a2 := (update_board hI hf2).2 n
      simp only at a1
      show n ∈ set_insert ⟨m, o⟩ (set_erase ⟨m1, o⟩
          (set_insert ⟨m1, o⟩ (set_erase ⟨old, o⟩ s.board))) ↔
        n ∈ set_insert ⟨m, o⟩ (set_erase ⟨old, o⟩ s.board)
      rw [a1, a0, a2]
      constructor
      · rintro (e | ⟨e | ⟨e1, e2⟩, e3⟩)
        · exact Or.inl e
        · exact absurd e e3
        · exact Or.inr ⟨e1, e2⟩
      · rintro (e | ⟨e1, e2⟩)
        · exact Or.inl e
        · refine Or.inr ⟨Or.inr ⟨e1, e2⟩, ?_⟩
          intro e
          apply e2
          apply hI.order_inj n e1 _ hold
          rw [e]
    · funext k
      show map_assign (map_erase (map_assign (map_erase s.match_to_order m1) m1 o) m) m o k =
        map_assign (map_erase s.match_to_order m) m o k
      by_cases hk : k = m.ident
      · rw [hk, map_update_self, map_update_self]
      · rw [map_update_other _ _ _ hk, map_update_other _ _ _ hk,
          map_update_other _ _ _ (by rw [← hm]; exact hk)]
  have hf2 : s.match_to_order m2.ident = some (old, o) := by rw [← hid]; exact hf1
  have hf3 : (map_assign (map_erase s.match_to_order m1) m1 o) m2.ident = some (m1, o) := by
    rw [← hid, map_update_self]
  have hf4 : (map_assign (map_erase s.match_to_order m1) m1 o) m1.ident = some (m1, o) :=
    map_update_self _ _ _
  exact ⟨⟨_, _, _, update_some hf1, update_some hf3, update_some hf2, key m2 hid.symm⟩,
    ⟨_, _, update_some hf1, update_some hf4, key m1 rfl⟩⟩

/-- C18 at the example scoreboard: T3-T4 is set to 2-0 and then to 2-1. -/
theorem last_update_wins_witness :
    example_board.active "T3" "T4" = true ∧
    ∃ s1 s12 s2, example_board.update ⟨"T3", "T4", 2, 0⟩ = some s1 ∧
      s1.update ⟨"T3", "T4", 2, 1⟩ = some s12 ∧
      example_board.update ⟨"T3", "T4", 2, 1⟩ = some s2 ∧ s12 = s2 :=
  ⟨rfl, (last_update_wins example_board example_reachable ⟨"T3", "T4", 2, 0⟩
    ⟨"T3", "T4", 2, 1⟩ rfl rfl).1⟩

end SportRadar
